import Mathlib

/-!
Verification of the ranking-reconciliation engine in `task3/task.py`.

The Python module reconciles two expert cluster rankings.  It consists of:

* `ClusterRanking` — wraps one ranking (a list of clusters of string labels),
  precomputes `cluster_map : element → cluster index` (a dict built by
  iterating clusters in order, so a later occurrence of an element overwrites
  an earlier one) and answers `get_relation(a, b) ∈ {"<", ">", "=", "?"}`.
* `find_contradictions` — scans the sorted union of elements and returns the
  ordered pairs (a, b), a < b, whose relations in the two rankings are
  directly opposed ("<" vs ">").
* `find_transitive_closure` — a Floyd–Warshall style pass over a relation
  dict mapping ordered pairs to "<" or ">".
* `build_consistent_ranking` — merges the pairwise relations of the two
  rankings into a relation dict, closes it transitively, builds the directed
  graph of "<" edges, and emits clusters by repeated extraction of
  zero-indegree elements, grouping consecutive extracted elements that are
  "=" in both input rankings.

Dictionaries keyed by elements or ordered pairs are embedded as functions
into `Option`; each key is written at most once by the source loops, so the
function embedding is exact.  Python's `sorted` on strings is embedded as
insertion sort by the lexicographic order on `String`.
-/

namespace Task3

/-- Relation labels returned by `ClusterRanking.get_relation`:
`lt` = "<" (before), `gt` = ">" (after), `eq` = "=" (same cluster),
`unknown` = "?" (an element is absent). -/
inductive Rel where
  | lt
  | gt
  | eq
  | unknown
deriving DecidableEq, Repr

/-- Directions stored in the merged relation dict of
`build_consistent_ranking` (only "<" and ">" are ever stored). -/
inductive Dir where
  | lt
  | gt
deriving DecidableEq, Repr

/-- A ranking as handed to `ClusterRanking.__init__`: an ordered list of
clusters, each a list of element labels. -/
abbrev ClusterRanking := List (List String)

/-- Helper for `cluster_map`: the Python dict is built by
`for idx, cluster in enumerate(ranking): for element in cluster:
cluster_map[element] = idx`, so the **last** cluster containing an element
wins.  `cluster_map_from k r x` is the value the dict assigns to `x` when the
clusters of `r` are numbered from `k` upwards. -/
def cluster_map_from (k : Nat) : ClusterRanking → String → Option Nat
  | [], _ => none
  | c :: cs, x =>
    match cluster_map_from (k + 1) cs x with
    | some j => some j
    | none => if x ∈ c then some k else none

/-- Embedding of `ClusterRanking.cluster_map` (task3/task.py, lines 21–27):
the dict mapping each element to the index of the last cluster containing
it, embedded as a function into `Option Nat`. -/
def cluster_map (r : ClusterRanking) (x : String) : Option Nat :=
  cluster_map_from 0 r x

/-- Embedding of `ClusterRanking.get_relation` (lines 33–46). -/
def get_relation (r : ClusterRanking) (a b : String) : Rel :=
  match cluster_map r a, cluster_map r b with
  | some ca, some cb =>
    if ca = cb then Rel.eq
    else if ca < cb then Rel.lt
    else Rel.gt
  | _, _ => Rel.unknown

/-- Lexicographic code-point comparison of character lists: the order
Python's `sorted` uses on strings. -/
def charListLe : List Char → List Char → Bool
  | [], _ => true
  | _ :: _, [] => false
  | c :: cs, d :: ds =>
    if c.toNat < d.toNat then true
    else if d.toNat < c.toNat then false
    else charListLe cs ds

/-- String comparison by code points, as Python's `sorted` compares
strings. -/
def strLe (a b : String) : Bool := charListLe a.data b.data

/-- The comparison as a decidable relation, for sorting. -/
def SLe (a b : String) : Prop := strLe a b = true

instance : DecidableRel SLe := fun a b => instDecidableEqBool (strLe a b) true

/-- Strict code-point order on strings. -/
def SLt (a b : String) : Prop := SLe a b ∧ a ≠ b

instance : DecidableRel SLt :=
  fun a b => inferInstanceAs (Decidable (SLe a b ∧ a ≠ b))

/-- The well-formedness assumption of the data model: no element occurs in
two different clusters of one ranking. -/
def PairwiseDisjoint (r : ClusterRanking) : Prop :=
  List.Pairwise (fun c d => ∀ y ∈ c, y ∉ d) r

instance (r : ClusterRanking) : Decidable (PairwiseDisjoint r) :=
  inferInstanceAs (Decidable (List.Pairwise (fun c d => ∀ y ∈ c, y ∉ d) r))

/-- The sorted union of the elements of the two rankings:
`sorted(ranking1.elements.union(ranking2.elements))` (lines 57 and 110).
Python's set union of the two element sets contains exactly the labels
occurring in either ranking; `sorted` orders them lexicographically by
code point without duplicates. -/
def allElements (r1 r2 : ClusterRanking) : List String :=
  ((r1.flatten ++ r2.flatten).dedup).insertionSort SLe

/-- The ordered pairs `(l[i], l[j])` with `i < j`, in the iteration order of
the double loop of `find_contradictions` (lines 59–61). -/
def orderedPairs : List String → List (String × String)
  | [] => []
  | x :: xs => (xs.map fun y => (x, y)) ++ orderedPairs xs

/-- The body of the pair loop of `find_contradictions` (lines 63–72): skip
the pair if either relation is "?", record it if the relations are directly
opposed. -/
def contra_check (r1 r2 : ClusterRanking) (p : String × String) : Bool :=
  let rel1 := get_relation r1 p.1 p.2
  let rel2 := get_relation r2 p.1 p.2
  if rel1 = Rel.unknown ∨ rel2 = Rel.unknown then false
  else decide ((rel1 = Rel.lt ∧ rel2 = Rel.gt) ∨ (rel1 = Rel.gt ∧ rel2 = Rel.lt))

/-- Embedding of `find_contradictions` (lines 49–74). -/
def find_contradictions (r1 r2 : ClusterRanking) : List (String × String) :=
  (orderedPairs (allElements r1 r2)).filter (contra_check r1 r2)

/-- The direction recorded for a definite relation label. -/
def dirOf : Rel → Option Dir
  | Rel.lt => some Dir.lt
  | Rel.gt => some Dir.gt
  | _ => none

/-- The conditional chain of the merging loop of `build_consistent_ranking`
(lines 132–151), as a function of the two relation labels of a pair:
agreement on a direction records it; "=" against a direction records the
non-"=" side's direction; direct disagreement records the first ranking's
direction; otherwise nothing is recorded. -/
def mergeRule (rel1 rel2 : Rel) : Option Dir :=
  if rel1 = rel2 ∧ (rel1 = Rel.lt ∨ rel1 = Rel.gt) then dirOf rel1
  else if (rel1 = Rel.eq ∧ (rel2 = Rel.lt ∨ rel2 = Rel.gt)) ∨
          (rel2 = Rel.eq ∧ (rel1 = Rel.lt ∨ rel1 = Rel.gt)) then
    dirOf (if rel1 ≠ Rel.eq then rel1 else rel2)
  else if (rel1 = Rel.lt ∧ rel2 = Rel.gt) ∨ (rel1 = Rel.gt ∧ rel2 = Rel.lt) then
    dirOf rel1
  else none

/-- The per-pair outcome of the relation-merging loop of
`build_consistent_ranking` (lines 119–151): the direction the loop records
in the `relations` dict for the ordered pair `(a, b)`, or `none` when it
records nothing.  The guard `a = b` embeds the skipped diagonal; it is
immaterial, since for `a = b` both relations are `eq` or `unknown` and
`mergeRule` yields `none` anyway.  The dict itself is built by
`merged_map` below; this function is its pointwise value. -/
def merged_relations (r1 r2 : ClusterRanking) (a b : String) : Option Dir :=
  if a = b then none
  else mergeRule (get_relation r1 a b) (get_relation r2 a b)

/-- A relation dict mapping ordered pairs of elements to a direction,
embedded as an association list where the most recent write is the first
binding, so a lookup takes the first matching key (exactly the overwrite
semantics of a Python dict). -/
abbrev RelMap := List ((String × String) × Dir)

/-- Dict lookup: the binding of the first matching key, if any. -/
def lookupRel (m : RelMap) (a b : String) : Option Dir :=
  match m with
  | [] => none
  | ((x, y), d) :: rest =>
    if x = a ∧ y = b then some d else lookupRel rest a b

/-- The ordered pairs `(a, b)` of distinct elements in the iteration order
of the double loop of lines 121–126 (`i == j` is skipped; the sorted union
has no duplicate entries, so index inequality is value inequality). -/
def allPairs (es : List String) : List (String × String) :=
  es.flatMap fun a => (es.filter fun b => decide (b ≠ a)).map fun b => (a, b)

/-- The `relations` dict built by the merging loop of
`build_consistent_ranking` (lines 119–151) as an association list: for each
ordered pair in loop order, the merge rules record a direction or nothing.
Each key is written at most once, so prepending preserves dict semantics. -/
def merged_map (r1 r2 : ClusterRanking) : RelMap :=
  (allPairs (allElements r1 r2)).foldl
    (fun acc p =>
      match merged_relations r1 r2 p.1 p.2 with
      | some d => (p, d) :: acc
      | none => acc)
    []

/-- The body of the triple loop of `find_transitive_closure`
(lines 88–102) for one triple `(k, i, j)`: writing `closure[(i, j)] = d`
is prepending the binding. -/
def closure_step (m : RelMap) (t : String × String × String) : RelMap :=
  if t.2.1 = t.2.2 then m
  else if lookupRel m t.2.1 t.1 = some Dir.lt ∧ lookupRel m t.1 t.2.2 = some Dir.lt then
    ((t.2.1, t.2.2), Dir.lt) :: m
  else if lookupRel m t.2.1 t.1 = some Dir.gt ∧ lookupRel m t.1 t.2.2 = some Dir.gt then
    ((t.2.1, t.2.2), Dir.gt) :: m
  else m

/-- The triples `(k, i, j)` in the iteration order of the three nested
loops of `find_transitive_closure`. -/
def triples (es : List String) : List (String × String × String) :=
  es.flatMap fun k => es.flatMap fun i => es.map fun j => (k, i, j)

/-- Embedding of `find_transitive_closure` (lines 77–104).  The source
derives its element list from the keys of the relation dict in Python set
iteration order, which is unspecified; the embedding is therefore
parametric in the element list `es`, and the theorems below hold for every
`es` (in particular for any ordering of the key elements, all of which lie
in the union of the two rankings). -/
def find_transitive_closure (es : List String) (m : RelMap) : RelMap :=
  (triples es).foldl closure_step m

/-- The closed relation dict computed at line 153 and consumed by the
graph-building phase. -/
def closed_map (r1 r2 : ClusterRanking) : RelMap :=
  find_transitive_closure (allElements r1 r2) (merged_map r1 r2)

/-- The current in-degree of `v` in the graph of "<" edges of the closed
relation (lines 155–166), after the decrements performed for every visited
element (lines 191–192): the number of unvisited `u` with a closed "<"
relation to `v`.  Every such `u` lies in the sorted union, and the union
list has no duplicates, so the filter length is the exact dict value. -/
def current_indegree (r1 r2 : ClusterRanking) (closed : RelMap)
    (visited : List String) (v : String) : Nat :=
  ((allElements r1 r2).filter fun u =>
    decide (lookupRel closed u v = some Dir.lt ∧ u ∉ visited)).length

/-- The ready set of one pass of the while loop (lines 173–174). -/
def zero_indegree_list (r1 r2 : ClusterRanking) (closed : RelMap)
    (visited : List String) : List String :=
  (allElements r1 r2).filter fun e =>
    decide (current_indegree r1 r2 closed visited e = 0 ∧ e ∉ visited)

/-- The cycle-breaking fallback (lines 176–181): the first unvisited
element of the sorted union, as a one-element list. -/
def pick_fallback (r1 r2 : ClusterRanking) (visited : List String) :
    List String :=
  match (allElements r1 r2).filter (fun e => decide (e ∉ visited)) with
  | [] => []
  | e :: _ => [e]

/-- The layer committed by one pass of the while loop (lines 173–188): the
ready set, or the fallback element when the ready set is empty.  The source
re-checks `elem not in visited` while walking `zero_indegree`; the ready
set is a filter of the duplicate-free sorted union by a condition including
`elem not in visited`, and the fallback element is unvisited by
construction, so the re-check never rejects an element. -/
def current_layer (r1 r2 : ClusterRanking) (closed : RelMap)
    (visited : List String) : List String :=
  match zero_indegree_list r1 r2 closed visited with
  | [] => pick_fallback r1 r2 visited
  | z => z

/-- Helper for `groupSame`: the walk of lines 198–208 with the running
`temp_cluster` and its last element made explicit (`lastElem` is the last
element of `temp`). -/
def groupSameAux (r1 r2 : ClusterRanking) :
    List String → String → List String → List (List String)
  | temp, _, [] => [temp]
  | temp, lastElem, e :: es =>
    if get_relation r1 lastElem e = Rel.eq ∧ get_relation r2 lastElem e = Rel.eq then
      groupSameAux r1 r2 (temp ++ [e]) e es
    else
      temp :: groupSameAux r1 r2 [e] e es

/-- The sub-clustering of one committed layer (lines 194–211): walk the
layer and start a new sub-cluster whenever the current and previous
elements are not "=" in both source rankings. -/
def groupSame (r1 r2 : ClusterRanking) : List String → List (List String)
  | [] => []
  | x :: xs => groupSameAux r1 r2 [x] x xs

/-- The while loop of `build_consistent_ranking` (lines 169–213), with the
loop condition `len(visited) < len(all_elements)` of line 172.  The source
loop always commits at least one element per pass while the condition
holds, so `(allElements r1 r2).length` passes suffice; the lemmas below
only use the definition with enough fuel for the remaining elements. -/
def buildLoop (r1 r2 : ClusterRanking) (closed : RelMap) :
    Nat → List String → List (List String)
  | 0, _ => []
  | fuel + 1, visited =>
    if (allElements r1 r2).length ≤ visited.length then []
    else
      let layer := current_layer r1 r2 closed visited
      groupSame r1 r2 layer ++ buildLoop r1 r2 closed fuel (visited ++ layer)

/-- Embedding of `build_consistent_ranking` (lines 107–215). -/
def build_consistent_ranking (r1 r2 : ClusterRanking) : List (List String) :=
  buildLoop r1 r2 (closed_map r1 r2) (allElements r1 r2).length []

/-- Index of the output cluster containing `x` (the position of the first
cluster containing `x`, or the number of clusters when none does). -/
def clusterIdx (cs : List (List String)) (x : String) : Nat :=
  cs.findIdx fun c => c.contains x

/-- The four-rule merge policy exactly as worded in the specification
(§4.3), to be compared with the `merged_relations` dict built by the code:
rule 4 (either side UNKNOWN, or both SAME → nothing recorded), rule 1
(agreement on a direction → that direction), rule 2 (SAME yields to the
other side's definite direction), rule 3 (direct disagreement → the first
ranking's direction). -/
def spec_merge_policy (rel1 rel2 : Rel) : Option Dir :=
  if rel1 = Rel.unknown ∨ rel2 = Rel.unknown then none
  else if rel1 = Rel.eq ∧ rel2 = Rel.eq then none
  else if rel1 = rel2 then dirOf rel1
  else if rel1 = Rel.eq then dirOf rel2
  else if rel2 = Rel.eq then dirOf rel1
  else dirOf rel1

/-! Lemmas about `cluster_map`. -/

theorem cluster_map_from_eq_none {x : String} (k : Nat) (r : ClusterRanking) :
    cluster_map_from k r x = none ↔ x ∉ r.flatten := by
  induction r generalizing k with
  | nil => simp [cluster_map_from]
  | cons c cs ih =>
    simp only [cluster_map_from]
    cases h : cluster_map_from (k + 1) cs x with
    | some j =>
      have hx : x ∈ cs.flatten := by
        by_contra hq
        rw [(ih (k + 1)).mpr hq] at h
        exact Option.noConfusion h
      simp [List.flatten_cons, hx]
    | none =>
      have hx : x ∉ cs.flatten := (ih (k + 1)).mp h
      by_cases hc : x ∈ c
      · simp [List.flatten_cons, hc]
      · simp [List.flatten_cons, hc, hx]

theorem cluster_map_from_some {x : String} {i : Nat} (k : Nat) (r : ClusterRanking)
    (h : cluster_map_from k r x = some i) :
    ∃ j c, i = k + j ∧ r[j]? = some c ∧ x ∈ c := by
  induction r generalizing k with
  | nil => simp [cluster_map_from] at h
  | cons c cs ih =>
    simp only [cluster_map_from] at h
    cases h2 : cluster_map_from (k + 1) cs x with
    | some j' =>
      rw [h2] at h
      obtain rfl : j' = i := Option.some_injective _ h
      obtain ⟨j, cc, hj, hg, hm⟩ := ih (k + 1) h2
      refine ⟨j + 1, cc, by omega, ?_, hm⟩
      simpa using hg
    | none =>
      rw [h2] at h
      by_cases hc : x ∈ c
      · simp only [hc, if_true] at h
        obtain rfl : k = i := Option.some_injective _ h
        exact ⟨0, c, by omega, by simp, hc⟩
      · simp [hc] at h

theorem cluster_map_from_of_disjoint {x : String} {r : ClusterRanking}
    (hd : PairwiseDisjoint r) {j : Nat} {c : List String}
    (hc : r[j]? = some c) (hx : x ∈ c) (k : Nat) :
    cluster_map_from k r x = some (k + j) := by
  induction r generalizing k j with
  | nil => simp at hc
  | cons c0 cs ih =>
    rcases hd with _ | ⟨hd0, hdtail⟩
    cases j with
    | zero =>
      obtain rfl : c0 = c := by simpa using hc
      have hnone : cluster_map_from (k + 1) cs x = none := by
        rw [cluster_map_from_eq_none]
        intro hmem
        obtain ⟨c', hc', hx'⟩ := List.mem_flatten.mp hmem
        exact hd0 c' hc' x hx hx'
      simp [cluster_map_from, hnone, hx]
    | succ j =>
      have htail : cs[j]? = some c := by simpa using hc
      have := ih hdtail htail (k + 1)
      simp only [cluster_map_from, this]
      congr 1
      omega

theorem cluster_map_eq_none {r : ClusterRanking} {x : String} :
    cluster_map r x = none ↔ x ∉ r.flatten :=
  cluster_map_from_eq_none 0 r

theorem cluster_map_some_mem {r : ClusterRanking} {x : String} {i : Nat}
    (h : cluster_map r x = some i) : ∃ c, r[i]? = some c ∧ x ∈ c := by
  obtain ⟨j, c, hj, hg, hm⟩ := cluster_map_from_some 0 r h
  exact ⟨c, by simpa [hj] using hg, hm⟩

theorem cluster_map_of_disjoint {x : String} {r : ClusterRanking}
    (hd : PairwiseDisjoint r) {j : Nat} {c : List String}
    (hc : r[j]? = some c) (hx : x ∈ c) : cluster_map r x = some j := by
  simpa using cluster_map_from_of_disjoint hd hc hx 0

theorem mem_flatten_iff_cluster_map {r : ClusterRanking} {x : String} :
    x ∈ r.flatten ↔ ∃ i, cluster_map r x = some i := by
  constructor
  · intro h
    cases hc : cluster_map r x with
    | some i => exact ⟨i, rfl⟩
    | none => exact absurd h (cluster_map_eq_none.mp hc)
  · rintro ⟨i, hi⟩
    by_contra hq
    rw [cluster_map_eq_none.mpr hq] at hi
    exact Option.noConfusion hi

/-! Characterizations of `get_relation`. -/

theorem get_relation_unknown_iff {r : ClusterRanking} {a b : String} :
    get_relation r a b = Rel.unknown ↔
      cluster_map r a = none ∨ cluster_map r b = none := by
  unfold get_relation
  cases ha : cluster_map r a <;> cases hb : cluster_map r b <;> simp_all
  split_ifs <;> simp_all

theorem get_relation_eq_iff {r : ClusterRanking} {a b : String} :
    get_relation r a b = Rel.eq ↔
      ∃ i, cluster_map r a = some i ∧ cluster_map r b = some i := by
  unfold get_relation
  cases ha : cluster_map r a <;> cases hb : cluster_map r b <;> simp_all
  split_ifs <;> simp_all <;> omega

theorem get_relation_lt_iff {r : ClusterRanking} {a b : String} :
    get_relation r a b = Rel.lt ↔
      ∃ ca cb, cluster_map r a = some ca ∧ cluster_map r b = some cb ∧ ca < cb := by
  unfold get_relation
  cases ha : cluster_map r a <;> cases hb : cluster_map r b <;> simp_all
  split_ifs <;> simp_all <;> omega

theorem get_relation_gt_iff {r : ClusterRanking} {a b : String} :
    get_relation r a b = Rel.gt ↔
      ∃ ca cb, cluster_map r a = some ca ∧ cluster_map r b = some cb ∧ cb < ca := by
  unfold get_relation
  cases ha : cluster_map r a <;> cases hb : cluster_map r b <;> simp_all
  split_ifs <;> simp_all <;> omega

/-! Characterizations of the merged relation.  A pair is recorded as "<"
exactly when both elements occur in both rankings and the pair
`(cluster index in ranking 1, cluster index in ranking 2)` is
lexicographically increasing: ranking 1 orders them, or ranking 1 ties
them and ranking 2 orders them.  This makes the merged "<" a strict
partial order, which is what the transitive-closure and layering lemmas
below rest on. -/

theorem mergeRule_lt_iff (rel1 rel2 : Rel) :
    mergeRule rel1 rel2 = some Dir.lt ↔
      ((rel1 = Rel.lt ∧ rel2 ≠ Rel.unknown) ∨ (rel1 = Rel.eq ∧ rel2 = Rel.lt)) := by
  cases rel1 <;> cases rel2 <;> decide

theorem mergeRule_gt_iff (rel1 rel2 : Rel) :
    mergeRule rel1 rel2 = some Dir.gt ↔
      ((rel1 = Rel.gt ∧ rel2 ≠ Rel.unknown) ∨ (rel1 = Rel.eq ∧ rel2 = Rel.gt)) := by
  cases rel1 <;> cases rel2 <;> decide

theorem merged_self {r1 r2 : ClusterRanking} (a : String) :
    merged_relations r1 r2 a a = none := by
  simp [merged_relations]

theorem merged_lt_iff {r1 r2 : ClusterRanking} {a b : String} :
    merged_relations r1 r2 a b = some Dir.lt ↔
      ∃ ca cb da db, cluster_map r1 a = some ca ∧ cluster_map r1 b = some cb ∧
        cluster_map r2 a = some da ∧ cluster_map r2 b = some db ∧
        (ca < cb ∨ (ca = cb ∧ da < db)) := by
  by_cases hab : a = b
  · subst hab
    rw [merged_self]
    refine iff_of_false (by simp) ?_
    rintro ⟨ca, cb, da, db, h1, h2, h3, h4, h5⟩
    rw [h1] at h2
    rw [h3] at h4
    obtain rfl := Option.some_injective _ h2
    obtain rfl := Option.some_injective _ h4
    omega
  · unfold merged_relations
    rw [if_neg hab, mergeRule_lt_iff]
    constructor
    · rintro (⟨h1, h2⟩ | ⟨h1, h2⟩)
      · obtain ⟨ca, cb, ha, hb, hlt⟩ := get_relation_lt_iff.mp h1
        cases hda : cluster_map r2 a with
        | none => exact absurd (get_relation_unknown_iff.mpr (Or.inl hda)) h2
        | some da =>
          cases hdb : cluster_map r2 b with
          | none => exact absurd (get_relation_unknown_iff.mpr (Or.inr hdb)) h2
          | some db => exact ⟨ca, cb, da, db, ha, hb, rfl, rfl, Or.inl hlt⟩
      · obtain ⟨i, ha, hb⟩ := get_relation_eq_iff.mp h1
        obtain ⟨da, db, ha2, hb2, hlt⟩ := get_relation_lt_iff.mp h2
        exact ⟨i, i, da, db, ha, hb, ha2, hb2, Or.inr ⟨rfl, hlt⟩⟩
    · rintro ⟨ca, cb, da, db, ha, hb, ha2, hb2, hlt | ⟨rfl, hlt⟩⟩
      · refine Or.inl ⟨get_relation_lt_iff.mpr ⟨ca, cb, ha, hb, hlt⟩, ?_⟩
        intro hu
        rcases get_relation_unknown_iff.mp hu with h | h <;> simp_all
      · exact Or.inr ⟨get_relation_eq_iff.mpr ⟨ca, ha, hb⟩,
          get_relation_lt_iff.mpr ⟨da, db, ha2, hb2, hlt⟩⟩

theorem merged_gt_iff {r1 r2 : ClusterRanking} {a b : String} :
    merged_relations r1 r2 a b = some Dir.gt ↔
      ∃ ca cb da db, cluster_map r1 a = some ca ∧ cluster_map r1 b = some cb ∧
        cluster_map r2 a = some da ∧ cluster_map r2 b = some db ∧
        (cb < ca ∨ (ca = cb ∧ db < da)) := by
  by_cases hab : a = b
  · subst hab
    rw [merged_self]
    refine iff_of_false (by simp) ?_
    rintro ⟨ca, cb, da, db, h1, h2, h3, h4, h5⟩
    rw [h1] at h2
    rw [h3] at h4
    obtain rfl := Option.some_injective _ h2
    obtain rfl := Option.some_injective _ h4
    omega
  · unfold merged_relations
    rw [if_neg hab, mergeRule_gt_iff]
    constructor
    · rintro (⟨h1, h2⟩ | ⟨h1, h2⟩)
      · obtain ⟨ca, cb, ha, hb, hlt⟩ := get_relation_gt_iff.mp h1
        cases hda : cluster_map r2 a with
        | none => exact absurd (get_relation_unknown_iff.mpr (Or.inl hda)) h2
        | some da =>
          cases hdb : cluster_map r2 b with
          | none => exact absurd (get_relation_unknown_iff.mpr (Or.inr hdb)) h2
          | some db => exact ⟨ca, cb, da, db, ha, hb, rfl, rfl, Or.inl hlt⟩
      · obtain ⟨i, ha, hb⟩ := get_relation_eq_iff.mp h1
        obtain ⟨da, db, ha2, hb2, hlt⟩ := get_relation_gt_iff.mp h2
        exact ⟨i, i, da, db, ha, hb, ha2, hb2, Or.inr ⟨rfl, hlt⟩⟩
    · rintro ⟨ca, cb, da, db, ha, hb, ha2, hb2, hlt | ⟨rfl, hlt⟩⟩
      · refine Or.inl ⟨get_relation_gt_iff.mpr ⟨ca, cb, ha, hb, hlt⟩, ?_⟩
        intro hu
        rcases get_relation_unknown_iff.mp hu with h | h <;> simp_all
      · exact Or.inr ⟨get_relation_eq_iff.mpr ⟨ca, ha, hb⟩,
          get_relation_gt_iff.mpr ⟨da, db, ha2, hb2, hlt⟩⟩

theorem merged_lt_trans {r1 r2 : ClusterRanking} {a b c : String}
    (h1 : merged_relations r1 r2 a b = some Dir.lt)
    (h2 : merged_relations r1 r2 b c = some Dir.lt) :
    merged_relations r1 r2 a c = some Dir.lt := by
  obtain ⟨ca, cb, da, db, ha, hb, ha2, hb2, hl1⟩ := merged_lt_iff.mp h1
  obtain ⟨cb', cc, db', dc, hb', hc, hb2', hc2, hl2⟩ := merged_lt_iff.mp h2
  rw [hb] at hb'
  rw [hb2] at hb2'
  obtain rfl := Option.some_injective _ hb'
  obtain rfl := Option.some_injective _ hb2'
  exact merged_lt_iff.mpr ⟨ca, cc, da, dc, ha, hc, ha2, hc2, by omega⟩

theorem merged_gt_trans {r1 r2 : ClusterRanking} {a b c : String}
    (h1 : merged_relations r1 r2 a b = some Dir.gt)
    (h2 : merged_relations r1 r2 b c = some Dir.gt) :
    merged_relations r1 r2 a c = some Dir.gt := by
  obtain ⟨ca, cb, da, db, ha, hb, ha2, hb2, hl1⟩ := merged_gt_iff.mp h1
  obtain ⟨cb', cc, db', dc, hb', hc, hb2', hc2, hl2⟩ := merged_gt_iff.mp h2
  rw [hb] at hb'
  rw [hb2] at hb2'
  obtain rfl := Option.some_injective _ hb'
  obtain rfl := Option.some_injective _ hb2'
  exact merged_gt_iff.mpr ⟨ca, cc, da, dc, ha, hc, ha2, hc2, by omega⟩

theorem merged_lt_mem {r1 r2 : ClusterRanking} {a b : String}
    (h : merged_relations r1 r2 a b = some Dir.lt) :
    (a ∈ r1.flatten ∧ a ∈ r2.flatten) ∧ b ∈ r1.flatten ∧ b ∈ r2.flatten := by
  obtain ⟨ca, cb, da, db, ha, hb, ha2, hb2, _⟩ := merged_lt_iff.mp h
  exact ⟨⟨mem_flatten_iff_cluster_map.mpr ⟨ca, ha⟩, mem_flatten_iff_cluster_map.mpr ⟨da, ha2⟩⟩,
    mem_flatten_iff_cluster_map.mpr ⟨cb, hb⟩, mem_flatten_iff_cluster_map.mpr ⟨db, hb2⟩⟩

theorem merged_ne_of_some {r1 r2 : ClusterRanking} {a b : String} {d : Dir}
    (h : merged_relations r1 r2 a b = some d) : a ≠ b := by
  intro hab
  subst hab
  rw [merged_self] at h
  exact Option.noConfusion h

theorem merged_gt_mem {r1 r2 : ClusterRanking} {a b : String}
    (h : merged_relations r1 r2 a b = some Dir.gt) :
    (a ∈ r1.flatten ∧ a ∈ r2.flatten) ∧ b ∈ r1.flatten ∧ b ∈ r2.flatten := by
  obtain ⟨ca, cb, da, db, ha, hb, ha2, hb2, _⟩ := merged_gt_iff.mp h
  exact ⟨⟨mem_flatten_iff_cluster_map.mpr ⟨ca, ha⟩, mem_flatten_iff_cluster_map.mpr ⟨da, ha2⟩⟩,
    mem_flatten_iff_cluster_map.mpr ⟨cb, hb⟩, mem_flatten_iff_cluster_map.mpr ⟨db, hb2⟩⟩

/-! The sorted union and the pair lists. -/

theorem mem_allElements {r1 r2 : ClusterRanking} {x : String} :
    x ∈ allElements r1 r2 ↔ x ∈ r1.flatten ∨ x ∈ r2.flatten := by
  unfold allElements
  rw [List.mem_insertionSort]
  simp [List.mem_dedup]

theorem allElements_nodup (r1 r2 : ClusterRanking) : (allElements r1 r2).Nodup :=
  ((List.perm_insertionSort SLe _).nodup_iff).mpr (List.nodup_dedup _)

theorem mem_allPairs {es : List String} {a b : String} :
    (a, b) ∈ allPairs es ↔ a ∈ es ∧ b ∈ es ∧ b ≠ a := by
  simp only [allPairs, List.mem_flatMap, List.mem_map, List.mem_filter,
    decide_eq_true_eq, Prod.mk.injEq]
  constructor
  · rintro ⟨a', ha', b', ⟨hb', hne⟩, rfl, rfl⟩
    exact ⟨ha', hb', hne⟩
  · rintro ⟨ha, hb, hne⟩
    exact ⟨a, ha, b, ⟨hb, hne⟩, rfl, rfl⟩

/-! The merged dict agrees pointwise with the per-pair merge outcome, and
the transitive-closure pass leaves it unchanged as a map: the merged "<"
relation is the strict lexicographic order on index pairs, hence already
transitive, so every binding the closure adds carries the value the dict
already has for that key. -/

theorem lookupRel_merged_map {r1 r2 : ClusterRanking} (a b : String) :
    lookupRel (merged_map r1 r2) a b = merged_relations r1 r2 a b := by
  have key : ∀ (ps : List (String × String)) (acc : RelMap),
      lookupRel (ps.foldl (fun acc p =>
        match merged_relations r1 r2 p.1 p.2 with
        | some d => (p, d) :: acc
        | none => acc) acc) a b =
      if (a, b) ∈ ps ∧ merged_relations r1 r2 a b ≠ none
      then merged_relations r1 r2 a b
      else lookupRel acc a b := by
    intro ps
    induction ps with
    | nil => intro acc; simp
    | cons p ps ih =>
      intro acc
      rw [List.foldl_cons, ih]
      by_cases hmem : (a, b) ∈ ps ∧ merged_relations r1 r2 a b ≠ none
      · rw [if_pos hmem, if_pos ⟨List.mem_cons_of_mem _ hmem.1, hmem.2⟩]
      · rw [if_neg hmem]
        by_cases hp : p = (a, b)
        · subst hp
          cases hm : merged_relations r1 r2 a b with
          | some d =>
            simp only [hm]
            rw [if_pos ⟨List.mem_cons_self _ _, by simp⟩]
            simp [lookupRel]
          | none =>
            simp only [hm]
            rw [if_neg (fun h => h.2 rfl)]
        · obtain ⟨p1, p2⟩ := p
          have hskip : lookupRel (match merged_relations r1 r2 p1 p2 with
              | some d => ((p1, p2), d) :: acc
              | none => acc) a b = lookupRel acc a b := by
            cases hm : merged_relations r1 r2 p1 p2 with
            | some d =>
              show lookupRel (((p1, p2), d) :: acc) a b = lookupRel acc a b
              have : ¬(p1 = a ∧ p2 = b) := by
                rintro ⟨rfl, rfl⟩
                exact hp rfl
              simp [lookupRel, this]
            | none => rfl
          rw [hskip, if_neg]
          rintro ⟨hmem', hne⟩
          rcases List.mem_cons.mp hmem' with hcontra | hmem''
          · exact hp hcontra.symm
          · exact hmem ⟨hmem'', hne⟩
  unfold merged_map
  rw [key]
  by_cases hm : merged_relations r1 r2 a b = none
  · rw [if_neg (fun h => h.2 hm), hm]
    rfl
  · have hmem : (a, b) ∈ allPairs (allElements r1 r2) := by
      cases hd : merged_relations r1 r2 a b with
      | none => exact absurd hd hm
      | some d =>
        have hne : a ≠ b := merged_ne_of_some hd
        cases d with
        | lt =>
          obtain ⟨⟨h1, _⟩, h2, _⟩ := merged_lt_mem hd
          exact mem_allPairs.mpr ⟨mem_allElements.mpr (Or.inl h1),
            mem_allElements.mpr (Or.inl h2), hne.symm⟩
        | gt =>
          obtain ⟨⟨h1, _⟩, h2, _⟩ := merged_gt_mem hd
          exact mem_allPairs.mpr ⟨mem_allElements.mpr (Or.inl h1),
            mem_allElements.mpr (Or.inl h2), hne.symm⟩
    rw [if_pos ⟨hmem, hm⟩]

theorem closure_step_lookup {r1 r2 : ClusterRanking} {m : RelMap}
    (hm : ∀ a b, lookupRel m a b = merged_relations r1 r2 a b)
    (t : String × String × String) :
    ∀ a b, lookupRel (closure_step m t) a b = merged_relations r1 r2 a b := by
  obtain ⟨k, i, j⟩ := t
  intro a b
  unfold closure_step
  dsimp only
  by_cases hij : i = j
  · rw [if_pos hij]
    exact hm a b
  · rw [if_neg hij]
    by_cases h1 : lookupRel m i k = some Dir.lt ∧ lookupRel m k j = some Dir.lt
    · rw [if_pos h1]
      have e1 : merged_relations r1 r2 i k = some Dir.lt := by rw [← hm]; exact h1.1
      have e2 : merged_relations r1 r2 k j = some Dir.lt := by rw [← hm]; exact h1.2
      have hmerge : merged_relations r1 r2 i j = some Dir.lt := merged_lt_trans e1 e2
      show lookupRel (((i, j), Dir.lt) :: m) a b = _
      by_cases hab : i = a ∧ j = b
      · obtain ⟨rfl, rfl⟩ := hab
        simp [lookupRel, hmerge]
      · simp only [lookupRel, if_neg hab]
        exact hm a b
    · rw [if_neg h1]
      by_cases h2 : lookupRel m i k = some Dir.gt ∧ lookupRel m k j = some Dir.gt
      · rw [if_pos h2]
        have e1 : merged_relations r1 r2 i k = some Dir.gt := by rw [← hm]; exact h2.1
        have e2 : merged_relations r1 r2 k j = some Dir.gt := by rw [← hm]; exact h2.2
        have hmerge : merged_relations r1 r2 i j = some Dir.gt := merged_gt_trans e1 e2
        show lookupRel (((i, j), Dir.gt) :: m) a b = _
        by_cases hab : i = a ∧ j = b
        · obtain ⟨rfl, rfl⟩ := hab
          simp [lookupRel, hmerge]
        · simp only [lookupRel, if_neg hab]
          exact hm a b
      · rw [if_neg h2]
        exact hm a b

theorem closure_lookup {r1 r2 : ClusterRanking} (es : List String) (a b : String) :
    lookupRel (find_transitive_closure es (merged_map r1 r2)) a b =
      merged_relations r1 r2 a b := by
  have key : ∀ (ts : List (String × String × String)) (m : RelMap),
      (∀ a b, lookupRel m a b = merged_relations r1 r2 a b) →
      ∀ a b, lookupRel (ts.foldl closure_step m) a b = merged_relations r1 r2 a b := by
    intro ts
    induction ts with
    | nil => intro m hm; exact hm
    | cons t ts ih =>
      intro m hm
      rw [List.foldl_cons]
      exact ih _ (closure_step_lookup hm t)
  exact key _ _ lookupRel_merged_map a b

theorem closed_map_lookup {r1 r2 : ClusterRanking} (a b : String) :
    lookupRel (closed_map r1 r2) a b = merged_relations r1 r2 a b :=
  closure_lookup (allElements r1 r2) a b

/-! The code-point order on strings: reflexive, total, transitive,
antisymmetric, so sorting with it behaves as Python's `sorted`. -/

theorem charListLe_refl : ∀ xs : List Char, charListLe xs xs = true
  | [] => rfl
  | c :: cs => by simp [charListLe, charListLe_refl cs]

theorem charListLe_total : ∀ xs ys : List Char,
    charListLe xs ys = true ∨ charListLe ys xs = true := by
  intro xs
  induction xs with
  | nil => intro ys; left; rfl
  | cons c cs ih =>
    intro ys
    cases ys with
    | nil => right; rfl
    | cons d ds =>
      simp only [charListLe]
      rcases Nat.lt_trichotomy c.toNat d.toNat with h | h | h
      · left
        simp [h]
      · have h1 : ¬c.toNat < d.toNat := by omega
        have h2 : ¬d.toNat < c.toNat := by omega
        rcases ih ds with hh | hh
        · left
          simp [h1, h2, hh]
        · right
          simp [h1, h2, hh]
      · right
        simp [h]

theorem charListLe_trans : ∀ xs ys zs : List Char,
    charListLe xs ys = true → charListLe ys zs = true → charListLe xs zs = true := by
  intro xs
  induction xs with
  | nil => intro ys zs _ _; rfl
  | cons c cs ih =>
    intro ys zs h1 h2
    cases ys with
    | nil => simp [charListLe] at h1
    | cons d ds =>
      cases zs with
      | nil => simp [charListLe] at h2
      | cons e es =>
        simp only [charListLe] at h1 h2 ⊢
        split_ifs at h1 h2 ⊢ <;>
          first
            | rfl
            | omega
            | (exact ih ds es h1 h2)
            | simp_all

theorem charListLe_antisymm : ∀ xs ys : List Char,
    charListLe xs ys = true → charListLe ys xs = true → xs = ys := by
  intro xs
  induction xs with
  | nil => intro ys h1 h2; cases ys with
    | nil => rfl
    | cons d ds => simp [charListLe] at h2
  | cons c cs ih =>
    intro ys h1 h2
    cases ys with
    | nil => simp [charListLe] at h1
    | cons d ds =>
      simp only [charListLe] at h1 h2
      by_cases hcd : c.toNat < d.toNat
      · have hdc : ¬d.toNat < c.toNat := by omega
        rw [if_neg hdc, if_pos hcd] at h2
        exact absurd h2 (by simp)
      · by_cases hdc : d.toNat < c.toNat
        · rw [if_neg hcd, if_pos hdc] at h1
          exact absurd h1 (by simp)
        · rw [if_neg hcd, if_neg hdc] at h1
          rw [if_neg hdc, if_neg hcd] at h2
          have heq : c = d := by
            have hn : c.toNat = d.toNat := by omega
            calc c = Char.ofNat c.toNat := (Char.ofNat_toNat c).symm
              _ = Char.ofNat d.toNat := by rw [hn]
              _ = d := Char.ofNat_toNat d
          rw [heq, ih ds h1 h2]

theorem SLe_refl (a : String) : SLe a a := charListLe_refl a.data

theorem SLe_total (a b : String) : SLe a b ∨ SLe b a := charListLe_total a.data b.data

theorem SLe_trans {a b c : String} (h1 : SLe a b) (h2 : SLe b c) : SLe a c :=
  charListLe_trans a.data b.data c.data h1 h2

theorem SLe_antisymm {a b : String} (h1 : SLe a b) (h2 : SLe b a) : a = b := by
  have hd : a.data = b.data := charListLe_antisymm a.data b.data h1 h2
  exact congrArg String.mk hd

theorem SLt_asymm {a b : String} (h1 : SLt a b) (h2 : SLt b a) : False :=
  h1.2 (SLe_antisymm h1.1 h2.1)

theorem allElements_sorted (r1 r2 : ClusterRanking) :
    (allElements r1 r2).Pairwise SLe := by
  haveI : IsTotal String SLe := ⟨SLe_total⟩
  haveI : IsTrans String SLe := ⟨fun _ _ _ => SLe_trans⟩
  exact List.sorted_insertionSort SLe _

theorem allElements_pairwise_slt (r1 r2 : ClusterRanking) :
    (allElements r1 r2).Pairwise SLt := by
  have h1 := allElements_sorted r1 r2
  have h2 := allElements_nodup r1 r2
  exact (h1.and h2).imp fun h => ⟨h.1, h.2⟩

/-! The pair list of `find_contradictions` and its membership. -/

theorem orderedPairs_mem_of {l : List String} {a b : String}
    (h : (a, b) ∈ orderedPairs l) : a ∈ l ∧ b ∈ l := by
  induction l with
  | nil => simp [orderedPairs] at h
  | cons x xs ih =>
    simp only [orderedPairs, List.mem_append, List.mem_map] at h
    rcases h with ⟨y, hy, heq⟩ | h
    · cases heq
      exact ⟨List.mem_cons_self _ _, List.mem_cons_of_mem _ hy⟩
    · obtain ⟨ha, hb⟩ := ih h
      exact ⟨List.mem_cons_of_mem _ ha, List.mem_cons_of_mem _ hb⟩

theorem mem_orderedPairs_iff {l : List String} (hl : l.Pairwise SLt) {a b : String} :
    (a, b) ∈ orderedPairs l ↔ a ∈ l ∧ b ∈ l ∧ SLt a b := by
  induction l with
  | nil => simp [orderedPairs]
  | cons x xs ih =>
    rcases hl with _ | ⟨hx, hxs⟩
    simp only [orderedPairs, List.mem_append, List.mem_map, List.mem_cons]
    constructor
    · rintro (⟨y, hy, heq⟩ | h)
      · cases heq
        exact ⟨Or.inl rfl, Or.inr hy, hx _ hy⟩
      · obtain ⟨ha, hb, hab⟩ := (ih hxs).mp h
        exact ⟨Or.inr ha, Or.inr hb, hab⟩
    · rintro ⟨ha | ha, hb | hb, hab⟩
      · exact absurd (ha ▸ hb ▸ hab) (fun hc => hc.2 rfl)
      · subst ha
        exact Or.inl ⟨b, hb, rfl⟩
      · subst hb
        exact absurd (hx a ha) (fun hc => SLt_asymm hab hc)
      · exact Or.inr ((ih hxs).mpr ⟨ha, hb, hab⟩)

theorem orderedPairs_nodup {l : List String} (hl : l.Nodup) :
    (orderedPairs l).Nodup := by
  induction l with
  | nil => simp [orderedPairs]
  | cons x xs ih =>
    obtain ⟨hx, hxs⟩ := List.nodup_cons.mp hl
    simp only [orderedPairs]
    refine List.Nodup.append ?_ (ih hxs) ?_
    · refine hxs.map ?_
      intro u v huv
      cases huv
      rfl
    · intro p hp hp2
      obtain ⟨y, hy, heq⟩ := List.mem_map.mp hp
      subst heq
      exact hx (orderedPairs_mem_of hp2).1

theorem mem_find_contradictions {r1 r2 : ClusterRanking} {a b : String} :
    (a, b) ∈ find_contradictions r1 r2 ↔
      SLt a b ∧ ((get_relation r1 a b = Rel.lt ∧ get_relation r2 a b = Rel.gt) ∨
        (get_relation r1 a b = Rel.gt ∧ get_relation r2 a b = Rel.lt)) := by
  unfold find_contradictions
  rw [List.mem_filter]
  constructor
  · rintro ⟨hmem, hcheck⟩
    obtain ⟨_, _, hab⟩ := (mem_orderedPairs_iff (allElements_pairwise_slt r1 r2)).mp hmem
    refine ⟨hab, ?_⟩
    unfold contra_check at hcheck
    dsimp only at hcheck
    split_ifs at hcheck with h
    exact of_decide_eq_true hcheck
  · rintro ⟨hab, hrel⟩
    have hmemr1 : a ∈ r1.flatten ∧ b ∈ r1.flatten := by
      rcases hrel with ⟨h1, _⟩ | ⟨h1, _⟩
      · obtain ⟨ca, cb, ha, hb, _⟩ := get_relation_lt_iff.mp h1
        exact ⟨mem_flatten_iff_cluster_map.mpr ⟨ca, ha⟩,
          mem_flatten_iff_cluster_map.mpr ⟨cb, hb⟩⟩
      · obtain ⟨ca, cb, ha, hb, _⟩ := get_relation_gt_iff.mp h1
        exact ⟨mem_flatten_iff_cluster_map.mpr ⟨ca, ha⟩,
          mem_flatten_iff_cluster_map.mpr ⟨cb, hb⟩⟩
    have hmem : (a, b) ∈ orderedPairs (allElements r1 r2) :=
      (mem_orderedPairs_iff (allElements_pairwise_slt r1 r2)).mpr
        ⟨mem_allElements.mpr (Or.inl hmemr1.1),
         mem_allElements.mpr (Or.inl hmemr1.2), hab⟩
    refine ⟨hmem, ?_⟩
    unfold contra_check
    dsimp only
    split_ifs with h
    · rcases hrel with ⟨h1, h2⟩ | ⟨h1, h2⟩ <;> rcases h with h | h <;> simp_all
    · exact decide_eq_true hrel

theorem find_contradictions_nodup (r1 r2 : ClusterRanking) :
    (find_contradictions r1 r2).Nodup :=
  (orderedPairs_nodup (allElements_nodup r1 r2)).filter _

/-! The sub-clustering of a committed layer: it partitions the layer in
order, each produced cluster is a nonempty run whose consecutive elements
are "=" in both rankings, and a layer that is "=" throughout stays one
cluster. -/

theorem groupSameAux_flatten (r1 r2 : ClusterRanking) :
    ∀ (rest temp : List String) (lastElem : String),
      (groupSameAux r1 r2 temp lastElem rest).flatten = temp ++ rest := by
  intro rest
  induction rest with
  | nil =>
    intro temp lastElem
    simp [groupSameAux]
  | cons e es ih =>
    intro temp lastElem
    unfold groupSameAux
    split_ifs with h
    · rw [ih]
      simp
    · rw [List.flatten_cons, ih]
      simp

theorem groupSame_flatten (r1 r2 : ClusterRanking) (l : List String) :
    (groupSame r1 r2 l).flatten = l := by
  cases l with
  | nil => rfl
  | cons x xs =>
    unfold groupSame
    rw [groupSameAux_flatten]
    rfl

theorem groupSameAux_chain (r1 r2 : ClusterRanking) :
    ∀ (rest temp : List String) (lastElem : String),
      List.Chain' (fun a b => get_relation r1 a b = Rel.eq ∧
        get_relation r2 a b = Rel.eq) temp →
      temp.getLast? = some lastElem →
      ∀ c ∈ groupSameAux r1 r2 temp lastElem rest,
        List.Chain' (fun a b => get_relation r1 a b = Rel.eq ∧
          get_relation r2 a b = Rel.eq) c := by
  intro rest
  induction rest with
  | nil =>
    intro temp lastElem hch _ c hc
    simp only [groupSameAux, List.mem_singleton] at hc
    subst hc
    exact hch
  | cons e es ih =>
    intro temp lastElem hch hlast c hc
    unfold groupSameAux at hc
    split_ifs at hc with h
    · refine ih (temp ++ [e]) e ?_ ?_ c hc
      · refine List.Chain'.append hch (List.chain'_singleton e) ?_
        intro x hx y hy
        rw [hlast] at hx
        obtain rfl : lastElem = x := by simpa using hx
        obtain rfl : e = y := by simpa using hy
        exact h
      · exact List.getLast?_concat temp
    · rcases List.mem_cons.mp hc with rfl | hc2
      · exact hch
      · exact ih [e] e (List.chain'_singleton e) rfl c hc2

theorem groupSame_chain (r1 r2 : ClusterRanking) (l : List String) :
    ∀ c ∈ groupSame r1 r2 l,
      List.Chain' (fun a b => get_relation r1 a b = Rel.eq ∧
        get_relation r2 a b = Rel.eq) c := by
  cases l with
  | nil => simp [groupSame]
  | cons x xs =>
    intro c hc
    exact groupSameAux_chain r1 r2 xs [x] x (List.chain'_singleton x) rfl c hc

theorem groupSameAux_ne_nil (r1 r2 : ClusterRanking) :
    ∀ (rest temp : List String) (lastElem : String), temp ≠ [] →
      ∀ c ∈ groupSameAux r1 r2 temp lastElem rest, c ≠ [] := by
  intro rest
  induction rest with
  | nil =>
    intro temp lastElem hne c hc
    simp only [groupSameAux, List.mem_singleton] at hc
    subst hc
    exact hne
  | cons e es ih =>
    intro temp lastElem hne c hc
    unfold groupSameAux at hc
    split_ifs at hc with h
    · exact ih (temp ++ [e]) e (by simp) c hc
    · rcases List.mem_cons.mp hc with rfl | hc2
      · exact hne
      · exact ih [e] e (by simp) c hc2

theorem groupSame_ne_nil (r1 r2 : ClusterRanking) (l : List String) :
    ∀ c ∈ groupSame r1 r2 l, c ≠ [] := by
  cases l with
  | nil => simp [groupSame]
  | cons x xs =>
    intro c hc
    exact groupSameAux_ne_nil r1 r2 xs [x] x (by simp) c hc

theorem groupSameAux_all_eq (r1 r2 : ClusterRanking) :
    ∀ (rest temp : List String) (lastElem : String), lastElem ∈ temp →
      (∀ x ∈ temp ++ rest, ∀ y ∈ temp ++ rest,
        get_relation r1 x y = Rel.eq ∧ get_relation r2 x y = Rel.eq) →
      groupSameAux r1 r2 temp lastElem rest = [temp ++ rest] := by
  intro rest
  induction rest with
  | nil =>
    intro temp lastElem _ _
    simp [groupSameAux]
  | cons e es ih =>
    intro temp lastElem hlast hall
    unfold groupSameAux
    rw [if_pos (hall lastElem (List.mem_append_left _ hlast) e
      (List.mem_append_right _ (List.mem_cons_self _ _)))]
    rw [ih (temp ++ [e]) e (List.mem_append_right _ (List.mem_cons_self _ _))
      (by simpa using hall)]
    simp

theorem groupSame_all_eq (r1 r2 : ClusterRanking) (l : List String) (hne : l ≠ [])
    (hall : ∀ x ∈ l, ∀ y ∈ l,
      get_relation r1 x y = Rel.eq ∧ get_relation r2 x y = Rel.eq) :
    groupSame r1 r2 l = [l] := by
  cases l with
  | nil => exact absurd rfl hne
  | cons x xs =>
    show groupSameAux r1 r2 [x] x xs = [x :: xs]
    rw [groupSameAux_all_eq r1 r2 xs [x] x (List.mem_singleton_self x)
      (by simpa using hall)]
    rfl

/-- Every nonempty finite set carries a minimal element of a transitive
irreflexive relation. -/
theorem exists_minimal {R : String → String → Prop}
    (htr : ∀ a b c, R a b → R b c → R a c) (hirr : ∀ a, ¬R a a) :
    ∀ S : List String, S ≠ [] → ∃ e ∈ S, ∀ u ∈ S, ¬R u e := by
  intro S
  induction S with
  | nil => intro h; exact absurd rfl h
  | cons x xs ih =>
    intro _
    by_cases hxs : xs = []
    · subst hxs
      refine ⟨x, List.mem_cons_self _ _, ?_⟩
      intro u hu
      rcases List.mem_cons.mp hu with rfl | h
      · exact hirr u
      · simp at h
    · obtain ⟨e, he, hmin⟩ := ih hxs
      by_cases hxe : R x e
      · refine ⟨x, List.mem_cons_self _ _, ?_⟩
        intro u hu hru
        rcases List.mem_cons.mp hu with rfl | h
        · exact hirr u hru
        · exact hmin u h (htr u x e hru hxe)
      · refine ⟨e, List.mem_cons_of_mem _ he, ?_⟩
        intro u hu hru
        rcases List.mem_cons.mp hu with rfl | h
        · exact hxe hru
        · exact hmin u h hru

/-! Cardinality facts about duplicate-free lists. -/

theorem length_le_of_nodup_subset {l1 l2 : List String} (hnd : l1.Nodup)
    (hsub : l1 ⊆ l2) : l1.length ≤ l2.length :=
  (List.subperm_of_subset hnd hsub).length_le

theorem subset_of_nodup_length_le {l1 l2 : List String} (hnd : l1.Nodup)
    (hsub : l1 ⊆ l2) (hlen : l2.length ≤ l1.length) : l2 ⊆ l1 := by
  have hperm := (List.subperm_of_subset hnd hsub).perm_of_length_le hlen
  intro x hx
  exact hperm.symm.subset hx

theorem length_lt_of_missing {l1 l2 : List String} (hnd : l1.Nodup)
    (hsub : l1 ⊆ l2) {e : String} (he : e ∈ l2) (hne : e ∉ l1) :
    l1.length < l2.length := by
  have hnd2 : (e :: l1).Nodup := List.nodup_cons.mpr ⟨hne, hnd⟩
  have hs : (e :: l1) ⊆ l2 := by
    intro x hx
    rcases List.mem_cons.mp hx with rfl | h
    · exact he
    · exact hsub h
  have := length_le_of_nodup_subset hnd2 hs
  simpa [Nat.succ_le_iff] using this

/-! Position of an element's cluster in a cluster list. -/

theorem clusterIdx_lt_length_of_mem {cs : List (List String)} {x : String}
    (h : x ∈ cs.flatten) : clusterIdx cs x < cs.length := by
  obtain ⟨c, hc, hx⟩ := List.mem_flatten.mp h
  exact List.findIdx_lt_length_of_exists ⟨c, hc, by simpa using hx⟩

theorem clusterIdx_append_of_mem {cs ds : List (List String)} {x : String}
    (h : x ∈ cs.flatten) : clusterIdx (cs ++ ds) x = clusterIdx cs x := by
  have h1 : clusterIdx cs x < cs.length := clusterIdx_lt_length_of_mem h
  unfold clusterIdx at h1 ⊢
  rw [List.findIdx_append, if_pos h1]

theorem clusterIdx_append_of_not_mem {cs ds : List (List String)} {x : String}
    (h : x ∉ cs.flatten) : clusterIdx (cs ++ ds) x = cs.length + clusterIdx ds x := by
  have hlen : (cs.findIdx fun c => c.contains x) = cs.length := by
    rw [List.findIdx_eq_length_of_false]
    intro c hc
    simp only [List.elem_eq_mem, decide_eq_false_iff_not]
    intro hx
    exact h (List.mem_flatten.mpr ⟨c, hc, hx⟩)
  unfold clusterIdx
  rw [List.findIdx_append, hlen, if_neg (by omega), Nat.add_comm]

/-! Unfolding lemmas for the while loop. -/

theorem buildLoop_zero (r1 r2 : ClusterRanking) (closed : RelMap)
    (visited : List String) : buildLoop r1 r2 closed 0 visited = [] := rfl

theorem buildLoop_stop (r1 r2 : ClusterRanking) (closed : RelMap) (fuel : Nat)
    (visited : List String) (h : (allElements r1 r2).length ≤ visited.length) :
    buildLoop r1 r2 closed (fuel + 1) visited = [] := by
  simp [buildLoop, h]

theorem buildLoop_succ (r1 r2 : ClusterRanking) (closed : RelMap) (fuel : Nat)
    (visited : List String) (h : ¬(allElements r1 r2).length ≤ visited.length) :
    buildLoop r1 r2 closed (fuel + 1) visited =
      groupSame r1 r2 (current_layer r1 r2 closed visited) ++
        buildLoop r1 r2 closed fuel (visited ++ current_layer r1 r2 closed visited) := by
  simp [buildLoop, h]

/-! The ready set and the committed layer, for the closed dict actually
used by `build_consistent_ranking`. -/

theorem mem_zero_indegree_iff {r1 r2 : ClusterRanking} {visited : List String}
    {e : String} :
    e ∈ zero_indegree_list r1 r2 (closed_map r1 r2) visited ↔
      (e ∈ allElements r1 r2 ∧ e ∉ visited ∧
        ∀ u ∈ allElements r1 r2, u ∉ visited →
          merged_relations r1 r2 u e ≠ some Dir.lt) := by
  unfold zero_indegree_list
  rw [List.mem_filter]
  simp only [decide_eq_true_eq]
  constructor
  · rintro ⟨he, hz, hv⟩
    refine ⟨he, hv, ?_⟩
    intro u hu huv hm
    have : u ∈ (allElements r1 r2).filter fun u =>
        decide (lookupRel (closed_map r1 r2) u e = some Dir.lt ∧ u ∉ visited) := by
      rw [List.mem_filter]
      refine ⟨hu, ?_⟩
      simp only [decide_eq_true_eq]
      exact ⟨by rw [closed_map_lookup]; exact hm, huv⟩
    unfold current_indegree at hz
    rw [List.length_eq_zero] at hz
    rw [hz] at this
    exact List.not_mem_nil u this
  · rintro ⟨he, hv, hmin⟩
    refine ⟨he, ?_, hv⟩
    unfold current_indegree
    rw [List.length_eq_zero, List.filter_eq_nil_iff]
    intro u hu
    simp only [decide_eq_true_eq, not_and]
    intro hm huv
    exact hmin u hu huv (by rw [← closed_map_lookup]; exact hm)

theorem zero_indegree_ne_nil {r1 r2 : ClusterRanking} {visited : List String}
    (h : ∃ e ∈ allElements r1 r2, e ∉ visited) :
    zero_indegree_list r1 r2 (closed_map r1 r2) visited ≠ [] := by
  obtain ⟨e0, he0, hv0⟩ := h
  have hS : e0 ∈ (allElements r1 r2).filter (fun e => decide (e ∉ visited)) := by
    rw [List.mem_filter]
    exact ⟨he0, by simpa using hv0⟩
  obtain ⟨e, he, hmin⟩ := @exists_minimal
    (fun a b => merged_relations r1 r2 a b = some Dir.lt)
    (fun a b c => merged_lt_trans)
    (fun a hm => by
      have hm' : merged_relations r1 r2 a a = some Dir.lt := hm
      rw [merged_self] at hm'
      exact Option.noConfusion hm')
    ((allElements r1 r2).filter (fun e => decide (e ∉ visited)))
    (List.ne_nil_of_mem hS)
  obtain ⟨heA, heV⟩ := List.mem_filter.mp he
  intro hnil
  have : e ∈ zero_indegree_list r1 r2 (closed_map r1 r2) visited := by
    rw [mem_zero_indegree_iff]
    refine ⟨heA, by simpa using heV, ?_⟩
    intro u hu huv hm
    exact hmin u (List.mem_filter.mpr ⟨hu, by simpa using huv⟩) hm
  rw [hnil] at this
  exact List.not_mem_nil e this

theorem current_layer_eq_zero {r1 r2 : ClusterRanking} {visited : List String}
    (h : ∃ e ∈ allElements r1 r2, e ∉ visited) :
    current_layer r1 r2 (closed_map r1 r2) visited =
      zero_indegree_list r1 r2 (closed_map r1 r2) visited := by
  unfold current_layer
  cases hz : zero_indegree_list r1 r2 (closed_map r1 r2) visited with
  | nil => exact absurd hz (zero_indegree_ne_nil h)
  | cons a as => rfl

theorem mem_current_layer_sub {r1 r2 : ClusterRanking} {visited : List String}
    {closed : RelMap} {e : String}
    (he : e ∈ current_layer r1 r2 closed visited) :
    e ∈ allElements r1 r2 ∧ e ∉ visited := by
  unfold current_layer at he
  cases hz : zero_indegree_list r1 r2 closed visited with
  | nil =>
    rw [hz] at he
    unfold pick_fallback at he
    cases hf : (allElements r1 r2).filter (fun e => decide (e ∉ visited)) with
    | nil =>
      rw [hf] at he
      exact absurd he (List.not_mem_nil e)
    | cons f fs =>
      rw [hf] at he
      obtain rfl : e = f := by simpa using he
      have hmem : e ∈ (allElements r1 r2).filter (fun e => decide (e ∉ visited)) := by
        rw [hf]
        exact List.mem_cons_self _ _
      obtain ⟨h1, h2⟩ := List.mem_filter.mp hmem
      exact ⟨h1, by simpa using h2⟩
  | cons a as =>
    rw [hz] at he
    have hmem : e ∈ zero_indegree_list r1 r2 closed visited := by
      rw [hz]
      exact he
    obtain ⟨h1, h2⟩ := List.mem_filter.mp hmem
    simp only [decide_eq_true_eq] at h2
    exact ⟨h1, h2.2⟩

theorem current_layer_nodup {r1 r2 : ClusterRanking} {visited : List String}
    {closed : RelMap} : (current_layer r1 r2 closed visited).Nodup := by
  unfold current_layer
  cases hz : zero_indegree_list r1 r2 closed visited with
  | nil =>
    unfold pick_fallback
    cases (allElements r1 r2).filter (fun e => decide (e ∉ visited)) with
    | nil => exact List.nodup_nil
    | cons f fs => simp
  | cons a as =>
    show (a :: as).Nodup
    rw [← hz]
    unfold zero_indegree_list
    exact (allElements_nodup r1 r2).filter _

theorem current_layer_ne_nil {r1 r2 : ClusterRanking} {visited : List String}
    (h : ∃ e ∈ allElements r1 r2, e ∉ visited) :
    current_layer r1 r2 (closed_map r1 r2) visited ≠ [] := by
  rw [current_layer_eq_zero h]
  exact zero_indegree_ne_nil h

theorem not_mem_layer_of_lt_pred {r1 r2 : ClusterRanking} {visited : List String}
    {a b : String} (ha : a ∈ allElements r1 r2) (hav : a ∉ visited)
    (hab : merged_relations r1 r2 a b = some Dir.lt) :
    b ∉ current_layer r1 r2 (closed_map r1 r2) visited := by
  rw [current_layer_eq_zero ⟨a, ha, hav⟩]
  intro hb
  obtain ⟨_, _, hmin⟩ := mem_zero_indegree_iff.mp hb
  exact hmin a ha hav hab

/-! The while loop places each unvisited element of the union exactly
once. -/

theorem buildLoop_flatten_spec (r1 r2 : ClusterRanking) :
    ∀ (fuel : Nat) (visited : List String),
      visited.Nodup → visited ⊆ allElements r1 r2 →
      (allElements r1 r2).length - visited.length ≤ fuel →
      ((buildLoop r1 r2 (closed_map r1 r2) fuel visited).flatten.Nodup ∧
       ∀ x, x ∈ (buildLoop r1 r2 (closed_map r1 r2) fuel visited).flatten ↔
         (x ∈ allElements r1 r2 ∧ x ∉ visited)) := by
  intro fuel
  induction fuel with
  | zero =>
    intro visited hnd hsub hf
    refine ⟨by simp [buildLoop_zero], ?_⟩
    intro x
    rw [buildLoop_zero]
    simp only [List.flatten_nil, List.not_mem_nil, false_iff]
    rintro ⟨hx, hxv⟩
    exact hxv (subset_of_nodup_length_le hnd hsub (by omega) hx)
  | succ fuel ih =>
    intro visited hnd hsub hf
    by_cases hstop : (allElements r1 r2).length ≤ visited.length
    · refine ⟨by simp [buildLoop_stop r1 r2 _ _ _ hstop], ?_⟩
      intro x
      rw [buildLoop_stop r1 r2 _ _ _ hstop]
      simp only [List.flatten_nil, List.not_mem_nil, false_iff]
      rintro ⟨hx, hxv⟩
      exact hxv (subset_of_nodup_length_le hnd hsub hstop hx)
    · have hexists : ∃ e ∈ allElements r1 r2, e ∉ visited := by
        by_contra hq
        push_neg at hq
        exact hstop (length_le_of_nodup_subset (allElements_nodup r1 r2) hq)
      have hlsub : ∀ e ∈ current_layer r1 r2 (closed_map r1 r2) visited,
          e ∈ allElements r1 r2 ∧ e ∉ visited := fun e he => mem_current_layer_sub he
      have hlnd : (current_layer r1 r2 (closed_map r1 r2) visited).Nodup :=
        current_layer_nodup
      have hlne : current_layer r1 r2 (closed_map r1 r2) visited ≠ [] :=
        current_layer_ne_nil hexists
      have hnd' : (visited ++ current_layer r1 r2 (closed_map r1 r2) visited).Nodup := by
        rw [List.nodup_append]
        exact ⟨hnd, hlnd, fun x hx hx2 => (hlsub x hx2).2 hx⟩
      have hsub' : (visited ++ current_layer r1 r2 (closed_map r1 r2) visited) ⊆
          allElements r1 r2 := by
        intro x hx
        rcases List.mem_append.mp hx with h | h
        · exact hsub h
        · exact (hlsub x h).1
      have hlen' : (allElements r1 r2).length -
          (visited ++ current_layer r1 r2 (closed_map r1 r2) visited).length ≤ fuel := by
        have h1 : 0 < (current_layer r1 r2 (closed_map r1 r2) visited).length :=
          List.length_pos.mpr hlne
        rw [List.length_append]
        omega
      obtain ⟨ihnd, ihmem⟩ := ih _ hnd' hsub' hlen'
      rw [buildLoop_succ r1 r2 _ fuel visited hstop]
      rw [List.flatten_append, groupSame_flatten]
      constructor
      · rw [List.nodup_append]
        refine ⟨hlnd, ihnd, ?_⟩
        intro x hx hx2
        obtain ⟨_, hxv⟩ := (ihmem x).mp hx2
        exact hxv (List.mem_append_right _ hx)
      · intro x
        rw [List.mem_append, ihmem x]
        constructor
        · rintro (hx | ⟨hx, hxv⟩)
          · exact ⟨(hlsub x hx).1, (hlsub x hx).2⟩
          · exact ⟨hx, fun h => hxv (List.mem_append_left _ h)⟩
        · rintro ⟨hx, hxv⟩
          by_cases hxl : x ∈ current_layer r1 r2 (closed_map r1 r2) visited
          · exact Or.inl hxl
          · exact Or.inr ⟨hx, fun h => (List.mem_append.mp h).elim hxv hxl⟩

/-! The while loop respects the closed "<" relation: a "<" predecessor is
always committed in a strictly earlier cluster. -/

theorem buildLoop_order (r1 r2 : ClusterRanking) :
    ∀ (fuel : Nat) (visited : List String),
      visited.Nodup → visited ⊆ allElements r1 r2 →
      (allElements r1 r2).length - visited.length ≤ fuel →
      ∀ a b, merged_relations r1 r2 a b = some Dir.lt →
        a ∉ visited → b ∉ visited →
        clusterIdx (buildLoop r1 r2 (closed_map r1 r2) fuel visited) a <
          clusterIdx (buildLoop r1 r2 (closed_map r1 r2) fuel visited) b := by
  intro fuel
  induction fuel with
  | zero =>
    intro visited hnd hsub hf a b hab hav hbv
    exfalso
    have ha : a ∈ allElements r1 r2 :=
      mem_allElements.mpr (Or.inl (merged_lt_mem hab).1.1)
    exact hav (subset_of_nodup_length_le hnd hsub (by omega) ha)
  | succ fuel ih =>
    intro visited hnd hsub hf a b hab hav hbv
    have ha : a ∈ allElements r1 r2 :=
      mem_allElements.mpr (Or.inl (merged_lt_mem hab).1.1)
    have hb : b ∈ allElements r1 r2 :=
      mem_allElements.mpr (Or.inl (merged_lt_mem hab).2.1)
    by_cases hstop : (allElements r1 r2).length ≤ visited.length
    · exact absurd (subset_of_nodup_length_le hnd hsub hstop ha) hav
    · have hexists : ∃ e ∈ allElements r1 r2, e ∉ visited := ⟨a, ha, hav⟩
      have hlsub : ∀ e ∈ current_layer r1 r2 (closed_map r1 r2) visited,
          e ∈ allElements r1 r2 ∧ e ∉ visited := fun e he => mem_current_layer_sub he
      have hlnd : (current_layer r1 r2 (closed_map r1 r2) visited).Nodup :=
        current_layer_nodup
      have hlne : current_layer r1 r2 (closed_map r1 r2) visited ≠ [] :=
        current_layer_ne_nil hexists
      have hnd' : (visited ++ current_layer r1 r2 (closed_map r1 r2) visited).Nodup := by
        rw [List.nodup_append]
        exact ⟨hnd, hlnd, fun x hx hx2 => (hlsub x hx2).2 hx⟩
      have hsub' : (visited ++ current_layer r1 r2 (closed_map r1 r2) visited) ⊆
          allElements r1 r2 := by
        intro x hx
        rcases List.mem_append.mp hx with h | h
        · exact hsub h
        · exact (hlsub x h).1
      have hlen' : (allElements r1 r2).length -
          (visited ++ current_layer r1 r2 (closed_map r1 r2) visited).length ≤ fuel := by
        have h1 : 0 < (current_layer r1 r2 (closed_map r1 r2) visited).length :=
          List.length_pos.mpr hlne
        rw [List.length_append]
        omega
      have hbl : b ∉ current_layer r1 r2 (closed_map r1 r2) visited :=
        not_mem_layer_of_lt_pred ha hav hab
      rw [buildLoop_succ r1 r2 _ fuel visited hstop]
      have hgsf : (groupSame r1 r2 (current_layer r1 r2 (closed_map r1 r2) visited)).flatten
          = current_layer r1 r2 (closed_map r1 r2) visited := groupSame_flatten r1 r2 _
      have hbf : b ∉ (groupSame r1 r2
          (current_layer r1 r2 (closed_map r1 r2) visited)).flatten := by
        rw [hgsf]
        exact hbl
      by_cases hal : a ∈ current_layer r1 r2 (closed_map r1 r2) visited
      · have haf : a ∈ (groupSame r1 r2
            (current_layer r1 r2 (closed_map r1 r2) visited)).flatten := by
          rw [hgsf]
          exact hal
        rw [clusterIdx_append_of_mem haf, clusterIdx_append_of_not_mem hbf]
        have h2 := clusterIdx_lt_length_of_mem haf
        omega
      · have haf : a ∉ (groupSame r1 r2
            (current_layer r1 r2 (closed_map r1 r2) visited)).flatten := by
          rw [hgsf]
          exact hal
        rw [clusterIdx_append_of_not_mem haf, clusterIdx_append_of_not_mem hbf]
        have hrec := ih _ hnd' hsub' hlen' a b hab
          (fun h => (List.mem_append.mp h).elim hav hal)
          (fun h => (List.mem_append.mp h).elim hbv hbl)
        omega

/-! Every cluster the loop emits is an "=" run with respect to both input
rankings. -/

theorem buildLoop_chain (r1 r2 : ClusterRanking) (closed : RelMap) :
    ∀ (fuel : Nat) (visited : List String),
      ∀ c ∈ buildLoop r1 r2 closed fuel visited,
        List.Chain' (fun a b => get_relation r1 a b = Rel.eq ∧
          get_relation r2 a b = Rel.eq) c := by
  intro fuel
  induction fuel with
  | zero =>
    intro visited c hc
    rw [buildLoop_zero] at hc
    exact absurd hc (List.not_mem_nil c)
  | succ fuel ih =>
    intro visited c hc
    by_cases hstop : (allElements r1 r2).length ≤ visited.length
    · rw [buildLoop_stop r1 r2 _ _ _ hstop] at hc
      exact absurd hc (List.not_mem_nil c)
    · rw [buildLoop_succ r1 r2 _ fuel visited hstop] at hc
      rcases List.mem_append.mp hc with h | h
      · exact groupSame_chain r1 r2 _ c h
      · exact ih _ c h

/-! Merging a ranking with itself. -/

theorem merged_self_lt_iff {r : ClusterRanking} {a b : String} :
    merged_relations r r a b = some Dir.lt ↔
      ∃ ca cb, cluster_map r a = some ca ∧ cluster_map r b = some cb ∧ ca < cb := by
  rw [merged_lt_iff]
  constructor
  · rintro ⟨ca, cb, da, db, ha, hb, ha2, hb2, hl⟩
    rw [ha] at ha2
    rw [hb] at hb2
    obtain rfl := Option.some_injective _ ha2
    obtain rfl := Option.some_injective _ hb2
    exact ⟨ca, cb, ha, hb, by omega⟩
  · rintro ⟨ca, cb, ha, hb, hl⟩
    exact ⟨ca, cb, ca, cb, ha, hb, ha, hb, Or.inl hl⟩

theorem find_contradictions_self (r : ClusterRanking) :
    find_contradictions r r = [] := by
  unfold find_contradictions
  rw [List.filter_eq_nil_iff]
  intro p _
  cases h : get_relation r p.1 p.2 <;> simp [contra_check, h]

theorem cluster_map_eq_iff_mem {r : ClusterRanking} (hd : PairwiseDisjoint r)
    {k : Nat} {ck : List String} (hck : r[k]? = some ck) {x : String} :
    cluster_map r x = some k ↔ x ∈ ck := by
  constructor
  · intro h
    obtain ⟨c, hc, hxc⟩ := cluster_map_some_mem h
    rw [hck] at hc
    obtain rfl := Option.some_injective _ hc
    exact hxc
  · intro h
    exact cluster_map_of_disjoint hd hck h

theorem buildLoop_self_spec (r : ClusterRanking) (hd : PairwiseDisjoint r)
    (hne : ∀ c ∈ r, c ≠ []) :
    ∀ (fuel k : Nat) (visited : List String),
      (∀ x, x ∈ visited ↔ ∃ j, j < k ∧ ∃ c, r[j]? = some c ∧ x ∈ c) →
      visited.Nodup →
      (allElements r r).length - visited.length ≤ fuel →
      List.Forall₂ (fun c d => ∀ x, x ∈ c ↔ x ∈ d)
        (buildLoop r r (closed_map r r) fuel visited) (r.drop k) := by
  have hmemall : ∀ x : String, x ∈ allElements r r ↔ x ∈ r.flatten := by
    intro x
    rw [mem_allElements]
    exact or_self_iff
  intro fuel
  induction fuel with
  | zero =>
    intro k visited hvis hnd hf
    by_cases hk : r.length ≤ k
    · rw [buildLoop_zero, List.drop_eq_nil_of_le hk]
      exact List.Forall₂.nil
    · exfalso
      push_neg at hk
      have hck : r[k]? = some r[k] := List.getElem?_eq_getElem hk
      obtain ⟨x0, hx0⟩ := List.exists_mem_of_ne_nil _ (hne r[k] (List.getElem_mem hk))
      have hcm0 : cluster_map r x0 = some k := cluster_map_of_disjoint hd hck hx0
      have hx0v : x0 ∉ visited := by
        intro hv
        obtain ⟨j, hj, c, hc, hxc⟩ := (hvis x0).mp hv
        have := cluster_map_of_disjoint hd hc hxc
        rw [hcm0] at this
        obtain h := Option.some_injective _ this
        omega
      have hx0a : x0 ∈ allElements r r :=
        (hmemall x0).mpr (List.mem_flatten.mpr ⟨r[k], List.getElem_mem hk, hx0⟩)
      have hsubviz : visited ⊆ allElements r r := by
        intro x hx
        obtain ⟨j, hj, c, hc, hxc⟩ := (hvis x).mp hx
        exact (hmemall x).mpr (List.mem_flatten.mpr ⟨c, List.getElem?_mem hc, hxc⟩)
      have := length_lt_of_missing hnd hsubviz hx0a hx0v
      omega
  | succ fuel ih =>
    intro k visited hvis hnd hf
    have hsubviz : visited ⊆ allElements r r := by
      intro x hx
      obtain ⟨j, hj, c, hc, hxc⟩ := (hvis x).mp hx
      exact (hmemall x).mpr (List.mem_flatten.mpr ⟨c, List.getElem?_mem hc, hxc⟩)
    by_cases hk : r.length ≤ k
    · have hallsub : allElements r r ⊆ visited := by
        intro x hx
        obtain ⟨c, hcr, hxc⟩ := List.mem_flatten.mp ((hmemall x).mp hx)
        obtain ⟨j, hj⟩ := List.mem_iff_getElem?.mp hcr
        have hjlt : j < r.length := (List.getElem?_eq_some_iff.mp hj).1
        exact (hvis x).mpr ⟨j, by omega, c, hj, hxc⟩
      have hstop : (allElements r r).length ≤ visited.length :=
        length_le_of_nodup_subset (allElements_nodup r r) hallsub
      rw [buildLoop_stop r r _ _ _ hstop, List.drop_eq_nil_of_le hk]
      exact List.Forall₂.nil
    · push_neg at hk
      have hck : r[k]? = some r[k] := List.getElem?_eq_getElem hk
      obtain ⟨x0, hx0⟩ := List.exists_mem_of_ne_nil _ (hne r[k] (List.getElem_mem hk))
      have hcm0 : cluster_map r x0 = some k := cluster_map_of_disjoint hd hck hx0
      have hnotvis : ∀ x, cluster_map r x = some k → x ∉ visited := by
        intro x hcm hv
        obtain ⟨j, hj, c, hc, hxc⟩ := (hvis x).mp hv
        have := cluster_map_of_disjoint hd hc hxc
        rw [hcm] at this
        obtain h := Option.some_injective _ this
        omega
      have hx0v : x0 ∉ visited := hnotvis x0 hcm0
      have hx0a : x0 ∈ allElements r r :=
        (hmemall x0).mpr (List.mem_flatten.mpr ⟨r[k], List.getElem_mem hk, hx0⟩)
      have hstop : ¬(allElements r r).length ≤ visited.length := by
        have := length_lt_of_missing hnd hsubviz hx0a hx0v
        omega
      have hexists : ∃ e ∈ allElements r r, e ∉ visited := ⟨x0, hx0a, hx0v⟩
      -- the committed layer is exactly cluster k
      have hlayer_mem : ∀ e, e ∈ current_layer r r (closed_map r r) visited ↔
          cluster_map r e = some k := by
        intro e
        rw [current_layer_eq_zero hexists, mem_zero_indegree_iff]
        constructor
        · rintro ⟨hea, hev, hmin⟩
          obtain ⟨i, hi⟩ := mem_flatten_iff_cluster_map.mp ((hmemall e).mp hea)
          obtain ⟨c, hc, hec⟩ := cluster_map_some_mem hi
          have hik : ¬i < k := by
            intro hlt
            exact hev ((hvis e).mpr ⟨i, hlt, c, hc, hec⟩)
          have hki : ¬k < i := by
            intro hlt
            exact hmin x0 hx0a hx0v
              (merged_self_lt_iff.mpr ⟨k, i, hcm0, hi, hlt⟩)
          have : i = k := by omega
          rw [← this]
          exact hi
        · intro hcm
          obtain ⟨c, hc, hec⟩ := cluster_map_some_mem hcm
          refine ⟨(hmemall e).mpr (List.mem_flatten.mpr ⟨c, List.getElem?_mem hc, hec⟩),
            hnotvis e hcm, ?_⟩
          intro u hu huv hm
          obtain ⟨cu, ce, hcu, hce, hlt⟩ := merged_self_lt_iff.mp hm
          rw [hcm] at hce
          obtain rfl := Option.some_injective _ hce
          obtain ⟨c', hc', huc'⟩ := cluster_map_some_mem hcu
          exact huv ((hvis u).mpr ⟨cu, hlt, c', hc', huc'⟩)
      have hclusterk : ∀ x, cluster_map r x = some k ↔ x ∈ r[k] :=
        fun x => cluster_map_eq_iff_mem hd hck
      -- the layer stays one cluster under sub-clustering
      have hallpairs : ∀ x ∈ current_layer r r (closed_map r r) visited,
          ∀ y ∈ current_layer r r (closed_map r r) visited,
            get_relation r x y = Rel.eq ∧ get_relation r x y = Rel.eq := by
        intro x hx y hy
        have hx' := (hlayer_mem x).mp hx
        have hy' := (hlayer_mem y).mp hy
        have : get_relation r x y = Rel.eq := get_relation_eq_iff.mpr ⟨k, hx', hy'⟩
        exact ⟨this, this⟩
      have hlne : current_layer r r (closed_map r r) visited ≠ [] :=
        current_layer_ne_nil hexists
      have hgroup : groupSame r r (current_layer r r (closed_map r r) visited) =
          [current_layer r r (closed_map r r) visited] :=
        groupSame_all_eq r r _ hlne hallpairs
      -- advance the loop one step
      rw [buildLoop_succ r r _ fuel visited hstop, hgroup,
        List.drop_eq_getElem_cons hk]
      show List.Forall₂ _ (current_layer r r (closed_map r r) visited ::
        buildLoop r r (closed_map r r) fuel _) _
      refine List.Forall₂.cons ?_ ?_
      · intro x
        rw [hlayer_mem x, hclusterk x]
      · -- recursive call at cluster k + 1
        have hlsub : ∀ e ∈ current_layer r r (closed_map r r) visited,
            e ∈ allElements r r ∧ e ∉ visited := fun e he => mem_current_layer_sub he
        have hnd' : (visited ++ current_layer r r (closed_map r r) visited).Nodup := by
          rw [List.nodup_append]
          exact ⟨hnd, current_layer_nodup, fun x hx hx2 => (hlsub x hx2).2 hx⟩
        have hvis' : ∀ x, x ∈ visited ++ current_layer r r (closed_map r r) visited ↔
            ∃ j, j < k + 1 ∧ ∃ c, r[j]? = some c ∧ x ∈ c := by
          intro x
          rw [List.mem_append]
          constructor
          · rintro (hx | hx)
            · obtain ⟨j, hj, c, hc, hxc⟩ := (hvis x).mp hx
              exact ⟨j, by omega, c, hc, hxc⟩
            · exact ⟨k, by omega, r[k], hck, (hclusterk x).mp ((hlayer_mem x).mp hx)⟩
          · rintro ⟨j, hj, c, hc, hxc⟩
            by_cases hjk : j < k
            · exact Or.inl ((hvis x).mpr ⟨j, hjk, c, hc, hxc⟩)
            · have : j = k := by omega
              subst this
              rw [hck] at hc
              obtain rfl := Option.some_injective _ hc
              exact Or.inr ((hlayer_mem x).mpr ((hclusterk x).mpr hxc))
        have hlen' : (allElements r r).length -
            (visited ++ current_layer r r (closed_map r r) visited).length ≤ fuel := by
          have h1 : 0 < (current_layer r r (closed_map r r) visited).length :=
            List.length_pos.mpr hlne
          rw [List.length_append]
          omega
        exact ih (k + 1) _ hvis' hnd' hlen'

/-! Positions within a layer: an element before another in a
duplicate-free concatenation of clusters, placed in different clusters,
gets the smaller cluster index. -/

theorem before_of_pairwise {R : String → String → Prop}
    (hasym : ∀ x y, R x y → ¬R y x) :
    ∀ {l : List String} {a b : String}, l.Pairwise R → a ∈ l → b ∈ l → R a b →
      ∃ l1 l2, l = l1 ++ a :: l2 ∧ b ∈ l2 := by
  intro l
  induction l with
  | nil => intro a b _ ha _ _; exact absurd ha (List.not_mem_nil a)
  | cons x xs ih =>
    intro a b hp ha hb hr
    rcases hp with _ | ⟨hx, hxs⟩
    rcases List.mem_cons.mp ha with rfl | ha2
    · rcases List.mem_cons.mp hb with rfl | hb2
      · exact absurd hr (hasym b b hr)
      · exact ⟨[], xs, rfl, hb2⟩
    · rcases List.mem_cons.mp hb with rfl | hb2
      · exact absurd hr (hasym b a (hx a ha2))
      · obtain ⟨l1, l2, hdec, hbl2⟩ := ih hxs ha2 hb2 hr
        exact ⟨x :: l1, l2, by rw [hdec]; rfl, hbl2⟩

theorem clusterIdx_cons_of_mem {c : List String} {cs : List (List String)}
    {x : String} (h : x ∈ c) : clusterIdx (c :: cs) x = 0 := by
  unfold clusterIdx
  simp [List.findIdx_cons, h]

theorem clusterIdx_cons_of_not_mem {c : List String} {cs : List (List String)}
    {x : String} (h : x ∉ c) : clusterIdx (c :: cs) x = clusterIdx cs x + 1 := by
  unfold clusterIdx
  simp [List.findIdx_cons, h]

theorem clusterIdx_lt_of_sep :
    ∀ (cs : List (List String)) {a b : String},
      cs.flatten.Nodup →
      (∀ c ∈ cs, ¬(a ∈ c ∧ b ∈ c)) →
      ∀ l1 l2, cs.flatten = l1 ++ a :: l2 → b ∈ l2 →
      clusterIdx cs a < clusterIdx cs b := by
  intro cs
  induction cs with
  | nil =>
    intro a b _ _ l1 l2 hdec _
    simp only [List.flatten_nil] at hdec
    exact absurd hdec.symm (List.append_ne_nil_of_right_ne_nil l1 (List.cons_ne_nil a l2))
  | cons c cs' ih =>
    intro a b hnd hsep l1 l2 hdec hbl2
    rw [List.flatten_cons] at hnd hdec
    obtain ⟨hndc, hndcs, hdisj⟩ := List.nodup_append.mp hnd
    by_cases hac : a ∈ c
    · have hbc : b ∉ c := fun hb => hsep c (List.mem_cons_self _ _) ⟨hac, hb⟩
      rw [clusterIdx_cons_of_mem hac, clusterIdx_cons_of_not_mem hbc]
      omega
    · have hA : (l1 ++ a :: l2)[l1.length]? = some a := by
        rw [List.getElem?_append_right (Nat.le_refl _)]
        simp
      have hclen : c.length ≤ l1.length := by
        by_contra hq
        push_neg at hq
        rw [← hdec] at hA
        rw [List.getElem?_append_left hq] at hA
        exact hac (List.getElem?_mem hA)
      have htake : c = l1.take c.length := by
        have h1 : (c ++ cs'.flatten).take c.length = c := List.take_left c cs'.flatten
        rw [hdec, List.take_append_of_le_length hclen] at h1
        exact h1.symm
      have h2 : l1 = c ++ l1.drop c.length := by
        conv_lhs => rw [← List.take_append_drop c.length l1]
        rw [← htake]
      have hfact : cs'.flatten = l1.drop c.length ++ a :: l2 := by
        have hx : c ++ cs'.flatten = c ++ (l1.drop c.length ++ a :: l2) := by
          rw [hdec, ← List.append_assoc, ← h2]
        exact List.append_cancel_left hx
      have hbcs : b ∈ l1.drop c.length ++ a :: l2 :=
        List.mem_append_right _ (List.mem_cons_of_mem _ hbl2)
      have hbc : b ∉ c := fun hb => hdisj hb (by rw [hfact]; exact hbcs)
      rw [clusterIdx_cons_of_not_mem hac, clusterIdx_cons_of_not_mem hbc]
      have := ih hndcs (fun c' hc' => hsep c' (List.mem_cons_of_mem _ hc'))
        _ _ hfact hbl2
      omega

/-! From an "=" run to all pairs: the per-cluster relation chain yields the
relation for every pair of distinct members. -/

theorem chain_to_pairs {r1 r2 : ClusterRanking} {c : List String}
    (hch : List.Chain' (fun a b => get_relation r1 a b = Rel.eq ∧
      get_relation r2 a b = Rel.eq) c)
    {a b : String} (ha : a ∈ c) (hb : b ∈ c) (hne : a ≠ b) :
    get_relation r1 a b = Rel.eq ∧ get_relation r2 a b = Rel.eq := by
  have htrans : Transitive (fun a b => get_relation r1 a b = Rel.eq ∧
      get_relation r2 a b = Rel.eq) := by
    intro x y z hxy hyz
    constructor
    · obtain ⟨i, hx1, hy1⟩ := get_relation_eq_iff.mp hxy.1
      obtain ⟨i', hy1', hz1⟩ := get_relation_eq_iff.mp hyz.1
      rw [hy1] at hy1'
      obtain rfl := Option.some_injective _ hy1'
      exact get_relation_eq_iff.mpr ⟨i, hx1, hz1⟩
    · obtain ⟨i, hx1, hy1⟩ := get_relation_eq_iff.mp hxy.2
      obtain ⟨i', hy1', hz1⟩ := get_relation_eq_iff.mp hyz.2
      rw [hy1] at hy1'
      obtain rfl := Option.some_injective _ hy1'
      exact get_relation_eq_iff.mpr ⟨i, hx1, hz1⟩
  have hsymm : Symmetric (fun a b => get_relation r1 a b = Rel.eq ∧
      get_relation r2 a b = Rel.eq) := by
    intro x y hxy
    constructor
    · obtain ⟨i, hx1, hy1⟩ := get_relation_eq_iff.mp hxy.1
      exact get_relation_eq_iff.mpr ⟨i, hy1, hx1⟩
    · obtain ⟨i, hx1, hy1⟩ := get_relation_eq_iff.mp hxy.2
      exact get_relation_eq_iff.mpr ⟨i, hy1, hx1⟩
  haveI : IsTrans String (fun a b => get_relation r1 a b = Rel.eq ∧
      get_relation r2 a b = Rel.eq) := ⟨fun x y z hxy hyz => htrans hxy hyz⟩
  have hpair := List.chain'_iff_pairwise.mp hch
  exact hpair.forall hsymm ha hb hne

theorem countP_eq_one_of_nodup_flatten :
    ∀ (cs : List (List String)) {x : String}, cs.flatten.Nodup → x ∈ cs.flatten →
      cs.countP (fun c => c.contains x) = 1 := by
  intro cs
  induction cs with
  | nil =>
    intro x _ hx
    simp at hx
  | cons c cs' ih =>
    intro x hnd hx
    rw [List.flatten_cons] at hnd hx
    obtain ⟨hndc, hndcs, hdisj⟩ := List.nodup_append.mp hnd
    rw [List.countP_cons]
    by_cases hxc : x ∈ c
    · have hz : cs'.countP (fun c => c.contains x) = 0 := by
        rw [List.countP_eq_zero]
        intro c' hc'
        simp only [List.elem_eq_mem, decide_eq_true_eq]
        intro hx'
        exact hdisj hxc (List.mem_flatten.mpr ⟨c', hc', hx'⟩)
      have hone : (if (fun c => c.contains x) c then 1 else 0) = 1 := by simp [hxc]
      rw [hz, hone]
    · have hxcs : x ∈ cs'.flatten := (List.mem_append.mp hx).resolve_left hxc
      rw [ih hndcs hxcs]
      simp [hxc]

theorem mergeRule_eq_spec (rel1 rel2 : Rel) :
    mergeRule rel1 rel2 = spec_merge_policy rel1 rel2 := by
  cases rel1 <;> cases rel2 <;> decide

/-! The claims. -/

/-- C1.  For every ordered pair of distinct elements, the direction the
merger records in the `relations` dict (or the absence of a record) is
exactly what the specification's four-rule policy prescribes for the two
rankings' relation labels: agreement on BEFORE or AFTER gives that
direction, SAME yields to the definite side, direct disagreement defaults
to the first ranking's direction, and an UNKNOWN side or double SAME
records nothing. -/
theorem merged_map_follows_spec_policy (r1 r2 : ClusterRanking) (a b : String)
    (hab : a ≠ b) :
    lookupRel (merged_map r1 r2) a b =
      spec_merge_policy (get_relation r1 a b) (get_relation r2 a b) := by
  rw [lookupRel_merged_map]
  unfold merged_relations
  rw [if_neg hab, mergeRule_eq_spec]

/-- Witness for C1: the SAME-yields rule on a concrete pair, evaluated. -/
theorem merged_map_follows_spec_policy_witness :
    ("x" : String) ≠ "y" ∧
    lookupRel (merged_map [["x", "y"], ["z"]] [["y"], ["x", "z"]]) "x" "y" =
      spec_merge_policy (get_relation [["x", "y"], ["z"]] "x" "y")
        (get_relation [["y"], ["x", "z"]] "x" "y") :=
  ⟨by decide, merged_map_follows_spec_policy [["x", "y"], ["z"]] [["y"], ["x", "z"]]
    "x" "y" (by decide)⟩

/-- C2.  After the transitive-closure step (over any element iteration
order, covering the source's unspecified Python set order), the closed
BEFORE relation is transitive: BEFORE(a,b) and BEFORE(b,c) in the closed
dict imply BEFORE(a,c). -/
theorem closed_before_trans (r1 r2 : ClusterRanking) (es : List String)
    (a b c : String)
    (h1 : lookupRel (find_transitive_closure es (merged_map r1 r2)) a b = some Dir.lt)
    (h2 : lookupRel (find_transitive_closure es (merged_map r1 r2)) b c = some Dir.lt) :
    lookupRel (find_transitive_closure es (merged_map r1 r2)) a c = some Dir.lt := by
  rw [closure_lookup] at h1 h2 ⊢
  exact merged_lt_trans h1 h2

/-- Witness for C2: a closed BEFORE chain on scenario 2, evaluated. -/
theorem closed_before_trans_witness :
    lookupRel (find_transitive_closure ["x", "y", "z"]
      (merged_map [["x", "y"], ["z"]] [["y"], ["x", "z"]])) "y" "x" = some Dir.lt ∧
    lookupRel (find_transitive_closure ["x", "y", "z"]
      (merged_map [["x", "y"], ["z"]] [["y"], ["x", "z"]])) "x" "z" = some Dir.lt ∧
    lookupRel (find_transitive_closure ["x", "y", "z"]
      (merged_map [["x", "y"], ["z"]] [["y"], ["x", "z"]])) "y" "z" = some Dir.lt :=
  ⟨by decide, by decide,
    closed_before_trans [["x", "y"], ["z"]] [["y"], ["x", "z"]] ["x", "y", "z"]
      "y" "x" "z" (by decide) (by decide)⟩

/-- C3.  The ranking builder places every element of the union in exactly
one output cluster, places nothing else, and respects the closed BEFORE
relation: BEFORE(a,b) post-closure puts a's cluster no later than b's, and
strictly earlier whenever a and b are not SAME in both inputs (in fact the
code always separates them strictly, which implies the claim). -/
theorem builder_places_and_respects (r1 r2 : ClusterRanking) :
    (∀ x, (x ∈ r1.flatten ∨ x ∈ r2.flatten) →
      (build_consistent_ranking r1 r2).countP (fun c => c.contains x) = 1) ∧
    (∀ c ∈ build_consistent_ranking r1 r2, ∀ x ∈ c,
      x ∈ r1.flatten ∨ x ∈ r2.flatten) ∧
    (∀ a b, lookupRel (closed_map r1 r2) a b = some Dir.lt →
      clusterIdx (build_consistent_ranking r1 r2) a ≤
        clusterIdx (build_consistent_ranking r1 r2) b ∧
      (¬(get_relation r1 a b = Rel.eq ∧ get_relation r2 a b = Rel.eq) →
        clusterIdx (build_consistent_ranking r1 r2) a <
          clusterIdx (build_consistent_ranking r1 r2) b)) := by
  obtain ⟨hnd, hmem⟩ := buildLoop_flatten_spec r1 r2 (allElements r1 r2).length []
    List.nodup_nil (by intro x hx; exact absurd hx (List.not_mem_nil x)) (by omega)
  refine ⟨?_, ?_, ?_⟩
  · intro x hx
    exact countP_eq_one_of_nodup_flatten _ hnd
      ((hmem x).mpr ⟨mem_allElements.mpr hx, List.not_mem_nil x⟩)
  · intro c hc x hxc
    have : x ∈ (build_consistent_ranking r1 r2).flatten :=
      List.mem_flatten.mpr ⟨c, hc, hxc⟩
    exact mem_allElements.mp ((hmem x).mp this).1
  · intro a b hab
    rw [closed_map_lookup] at hab
    have hstrict := buildLoop_order r1 r2 (allElements r1 r2).length []
      List.nodup_nil (by intro x hx; exact absurd hx (List.not_mem_nil x)) (by omega)
      a b hab (List.not_mem_nil a) (List.not_mem_nil b)
    exact ⟨Nat.le_of_lt hstrict, fun _ => hstrict⟩

/-- Witness for C3 on scenario 2: "x" lands in exactly one cluster, and the
closed BEFORE pair (y, x) is strictly ordered in the output. -/
theorem builder_places_and_respects_witness :
    (build_consistent_ranking [["x", "y"], ["z"]]
      [["y"], ["x", "z"]]).countP (fun c => c.contains "x") = 1 ∧
    clusterIdx (build_consistent_ranking [["x", "y"], ["z"]] [["y"], ["x", "z"]]) "y" ≤
      clusterIdx (build_consistent_ranking [["x", "y"], ["z"]] [["y"], ["x", "z"]]) "x" ∧
    clusterIdx (build_consistent_ranking [["x", "y"], ["z"]] [["y"], ["x", "z"]]) "y" <
      clusterIdx (build_consistent_ranking [["x", "y"], ["z"]] [["y"], ["x", "z"]]) "x" :=
  ⟨(builder_places_and_respects [["x", "y"], ["z"]] [["y"], ["x", "z"]]).1 "x"
      (by decide),
   ((builder_places_and_respects [["x", "y"], ["z"]] [["y"], ["x", "z"]]).2.2 "y" "x"
      (by decide)).1,
   ((builder_places_and_respects [["x", "y"], ["z"]] [["y"], ["x", "z"]]).2.2 "y" "x"
      (by decide)).2 (by decide)⟩

/-- C4.  The contradiction finder returns exactly the pairs (a, b), taken
once per unordered pair in lexicographic orientation, on which the two
rankings' relations are a direct BEFORE/AFTER disagreement; pairs
involving SAME or UNKNOWN are never flagged, and no pair repeats. -/
theorem contradictions_exact (r1 r2 : ClusterRanking) :
    (∀ a b, (a, b) ∈ find_contradictions r1 r2 ↔
      (SLt a b ∧ ((get_relation r1 a b = Rel.lt ∧ get_relation r2 a b = Rel.gt) ∨
        (get_relation r1 a b = Rel.gt ∧ get_relation r2 a b = Rel.lt)))) ∧
    (find_contradictions r1 r2).Nodup :=
  ⟨fun _ _ => mem_find_contradictions, find_contradictions_nodup r1 r2⟩

/-- C5.  The relation query: UNKNOWN when an element is absent, else SAME
on equal cluster indices, BEFORE when the first index is smaller, AFTER
when it is larger. -/
theorem relation_query_spec (r : ClusterRanking) (a b : String) :
    ((a ∉ r.flatten ∨ b ∉ r.flatten) → get_relation r a b = Rel.unknown) ∧
    (∀ i j, cluster_map r a = some i → cluster_map r b = some j →
      ((i = j → get_relation r a b = Rel.eq) ∧
       (i < j → get_relation r a b = Rel.lt) ∧
       (j < i → get_relation r a b = Rel.gt))) := by
  constructor
  · intro h
    rw [get_relation_unknown_iff]
    rcases h with h | h
    · exact Or.inl (cluster_map_eq_none.mpr h)
    · exact Or.inr (cluster_map_eq_none.mpr h)
  · intro i j hi hj
    refine ⟨?_, ?_, ?_⟩
    · intro hij
      exact get_relation_eq_iff.mpr ⟨i, hi, hij ▸ hj⟩
    · intro hij
      exact get_relation_lt_iff.mpr ⟨i, j, hi, hj, hij⟩
    · intro hij
      exact get_relation_gt_iff.mpr ⟨i, j, hi, hj, hij⟩

/-- Witness for C5: absent element and ordered clusters, evaluated. -/
theorem relation_query_spec_witness :
    get_relation [["a"], ["b"]] "a" "c" = Rel.unknown ∧
    get_relation [["a"], ["b"]] "a" "b" = Rel.lt :=
  ⟨(relation_query_spec [["a"], ["b"]] "a" "c").1 (Or.inr (by decide)),
   ((relation_query_spec [["a"], ["b"]] "a" "b").2 0 1 (by decide) (by decide)).2.1
     (by decide)⟩

/-- C6 counterexample.  The claim fails for a valid ranking (every element
in at most one cluster) containing an empty cluster: self-merging
[[], ["a"]] yields [["a"]], which is not the same ordered sequence of
clusters as sets. -/
theorem self_merge_structure_cex :
    PairwiseDisjoint [[], ["a"]] ∧
    find_contradictions ([[], ["a"]] : ClusterRanking) [[], ["a"]] = [] ∧
    ¬List.Forall₂ (fun c d => ∀ x, x ∈ c ↔ x ∈ d)
      (build_consistent_ranking [[], ["a"]] [[], ["a"]]) [[], ["a"]] := by
  refine ⟨by decide, by decide, ?_⟩
  intro h
  have hlen := h.length_eq
  have h1 : (build_consistent_ranking [[], ["a"]] [[], ["a"]]).length = 1 := by decide
  rw [h1] at hlen
  simp at hlen

/-- C6 as amended.  Merging any ranking with itself yields no
contradictions; and when the ranking is valid with all clusters nonempty
(an empty cluster is silently dropped by the builder, which is what the
counterexample exhibits), the output has the same ordered cluster
structure as sets. -/
theorem self_merge_structure (r : ClusterRanking) :
    find_contradictions r r = [] ∧
    (PairwiseDisjoint r → (∀ c ∈ r, c ≠ []) →
      List.Forall₂ (fun c d => ∀ x, x ∈ c ↔ x ∈ d)
        (build_consistent_ranking r r) r) := by
  refine ⟨find_contradictions_self r, ?_⟩
  intro hd hne
  have h := buildLoop_self_spec r hd hne (allElements r r).length 0 []
    (by intro x; simp) List.nodup_nil (by omega)
  simpa using h

/-- Witness for C6 as amended, on a ranking with unsorted cluster
contents. -/
theorem self_merge_structure_witness :
    find_contradictions [["b", "a"], ["c"]] [["b", "a"], ["c"]] = [] ∧
    List.Forall₂ (fun c d => ∀ x, x ∈ c ↔ x ∈ d)
      (build_consistent_ranking [["b", "a"], ["c"]] [["b", "a"], ["c"]])
      [["b", "a"], ["c"]] :=
  ⟨(self_merge_structure [["b", "a"], ["c"]]).1,
   (self_merge_structure [["b", "a"], ["c"]]).2 (by decide) (by decide)⟩

/-- C7 counterexample.  In R1 = [["y"], ["x"]], "y" is strictly before "x",
and both are absent from R2 = []; the claim demands the output keep "y"
before "x", but the builder emits the unconstrained elements in
lexicographic label order, [["x"], ["y"]]. -/
theorem unique_elements_order_cex :
    get_relation [["y"], ["x"]] "y" "x" = Rel.lt ∧
    cluster_map ([] : ClusterRanking) "x" = none ∧
    cluster_map ([] : ClusterRanking) "y" = none ∧
    ¬(clusterIdx (build_consistent_ranking [["y"], ["x"]] []) "y" <
      clusterIdx (build_consistent_ranking [["y"], ["x"]] []) "x") := by
  decide

/-- C7 as amended.  Elements present only in the first ranking carry no
merged relation at all, so they are all emitted in the first topological
layer as clusters ordered by label: for such a and b, a's output cluster
precedes b's exactly according to the lexicographic order of their labels,
regardless of their order in R1. -/
theorem unique_elements_lex_order (r1 r2 : ClusterRanking) (a b : String)
    (ha1 : a ∈ r1.flatten) (hb1 : b ∈ r1.flatten)
    (ha2 : a ∉ r2.flatten) (hb2 : b ∉ r2.flatten) (hab : SLt a b) :
    clusterIdx (build_consistent_ranking r1 r2) a <
      clusterIdx (build_consistent_ranking r1 r2) b := by
  have haall : a ∈ allElements r1 r2 := mem_allElements.mpr (Or.inl ha1)
  have hball : b ∈ allElements r1 r2 := mem_allElements.mpr (Or.inl hb1)
  have hpos : 0 < (allElements r1 r2).length :=
    List.length_pos.mpr (List.ne_nil_of_mem haall)
  have hnopred : ∀ x, x ∉ r2.flatten → ∀ u,
      merged_relations r1 r2 u x ≠ some Dir.lt := by
    intro x hx u hm
    exact hx (merged_lt_mem hm).2.2
  have hex : ∃ e ∈ allElements r1 r2, e ∉ ([] : List String) :=
    ⟨a, haall, List.not_mem_nil a⟩
  have hlayer : current_layer r1 r2 (closed_map r1 r2) [] =
      zero_indegree_list r1 r2 (closed_map r1 r2) [] := current_layer_eq_zero hex
  have hamem : a ∈ current_layer r1 r2 (closed_map r1 r2) [] := by
    rw [hlayer, mem_zero_indegree_iff]
    exact ⟨haall, List.not_mem_nil a, fun u _ _ => hnopred a ha2 u⟩
  have hbmem : b ∈ current_layer r1 r2 (closed_map r1 r2) [] := by
    rw [hlayer, mem_zero_indegree_iff]
    exact ⟨hball, List.not_mem_nil b, fun u _ _ => hnopred b hb2 u⟩
  have hstop : ¬(allElements r1 r2).length ≤ ([] : List String).length := by
    simp only [List.length_nil]
    omega
  have hsucc : (allElements r1 r2).length = ((allElements r1 r2).length - 1) + 1 := by
    omega
  have hbuild : build_consistent_ranking r1 r2 =
      groupSame r1 r2 (current_layer r1 r2 (closed_map r1 r2) []) ++
        buildLoop r1 r2 (closed_map r1 r2) ((allElements r1 r2).length - 1)
          ([] ++ current_layer r1 r2 (closed_map r1 r2) []) := by
    unfold build_consistent_ranking
    conv_lhs => rw [hsucc]
    exact buildLoop_succ r1 r2 _ _ [] hstop
  rw [hbuild]
  have hgsf := groupSame_flatten r1 r2 (current_layer r1 r2 (closed_map r1 r2) [])
  have haf : a ∈ (groupSame r1 r2 (current_layer r1 r2 (closed_map r1 r2) [])).flatten := by
    rw [hgsf]
    exact hamem
  have hbf : b ∈ (groupSame r1 r2 (current_layer r1 r2 (closed_map r1 r2) [])).flatten := by
    rw [hgsf]
    exact hbmem
  rw [clusterIdx_append_of_mem haf, clusterIdx_append_of_mem hbf]
  have hsep : ∀ c ∈ groupSame r1 r2 (current_layer r1 r2 (closed_map r1 r2) []),
      ¬(a ∈ c ∧ b ∈ c) := by
    rintro c hc ⟨hac, hbc⟩
    have heqb := chain_to_pairs (groupSame_chain r1 r2 _ c hc) hac hbc hab.2
    obtain ⟨i, hi, _⟩ := get_relation_eq_iff.mp heqb.2
    exact ha2 (mem_flatten_iff_cluster_map.mpr ⟨i, hi⟩)
  have hlpair : (current_layer r1 r2 (closed_map r1 r2) []).Pairwise SLt := by
    rw [hlayer]
    exact (allElements_pairwise_slt r1 r2).filter _
  obtain ⟨l1, l2, hdec, hbl2⟩ := before_of_pairwise
    (fun x y h1 h2 => SLt_asymm h1 h2) hlpair hamem hbmem hab
  have hndf : (groupSame r1 r2 (current_layer r1 r2 (closed_map r1 r2) [])).flatten.Nodup := by
    rw [hgsf]
    exact current_layer_nodup
  exact clusterIdx_lt_of_sep _ hndf hsep l1 l2 (by rw [hgsf]; exact hdec) hbl2

/-- Witness for C7 as amended: on the counterexample input the
lexicographically smaller "x" indeed precedes "y". -/
theorem unique_elements_lex_order_witness :
    clusterIdx (build_consistent_ranking [["y"], ["x"]] []) "x" <
      clusterIdx (build_consistent_ranking [["y"], ["x"]] []) "y" :=
  unique_elements_lex_order [["y"], ["x"]] [] "x" "y" (by decide) (by decide)
    (by decide) (by decide) (by decide)

/-- C8.  Scenario 2: with R1 = [["x","y"], ["z"]] and R2 = [["y"], ["x","z"]],
the merger records AFTER for (x, y) via the SAME-yields rule, and the
output ranking places y strictly before x. -/
theorem scenario2_same_yields :
    lookupRel (merged_map [["x", "y"], ["z"]] [["y"], ["x", "z"]]) "x" "y" =
      some Dir.gt ∧
    clusterIdx (build_consistent_ranking [["x", "y"], ["z"]] [["y"], ["x", "z"]]) "y" <
      clusterIdx (build_consistent_ranking [["x", "y"], ["z"]] [["y"], ["x", "z"]]) "x" := by
  decide

/-- C9.  An empty union of elements yields an empty contradiction list and
an empty consistent ranking (in particular for two empty rankings); the
functions are total, so no error arises. -/
theorem empty_union_empty_outputs (r1 r2 : ClusterRanking)
    (h1 : r1.flatten = []) (h2 : r2.flatten = []) :
    find_contradictions r1 r2 = [] ∧ build_consistent_ranking r1 r2 = [] := by
  have hall : allElements r1 r2 = [] := by
    unfold allElements
    rw [h1, h2]
    rfl
  constructor
  · unfold find_contradictions
    rw [hall]
    rfl
  · unfold build_consistent_ranking
    rw [hall]
    rfl

/-- Witness for C9: both rankings empty. -/
theorem empty_union_empty_outputs_witness :
    find_contradictions ([] : ClusterRanking) [] = [] ∧
    build_consistent_ranking ([] : ClusterRanking) [] = [] :=
  empty_union_empty_outputs [] [] rfl rfl

/-- C10.  Any two distinct elements sharing an output cluster are SAME in
both input rankings; in particular both are present in both rankings. -/
theorem output_clusters_same_in_both (r1 r2 : ClusterRanking) :
    ∀ c ∈ build_consistent_ranking r1 r2, ∀ a ∈ c, ∀ b ∈ c, a ≠ b →
      (get_relation r1 a b = Rel.eq ∧ get_relation r2 a b = Rel.eq) ∧
      (a ∈ r1.flatten ∧ a ∈ r2.flatten ∧ b ∈ r1.flatten ∧ b ∈ r2.flatten) := by
  intro c hc a ha b hb hne
  have hch := buildLoop_chain r1 r2 (closed_map r1 r2)
    (allElements r1 r2).length [] c hc
  have heq := chain_to_pairs hch ha hb hne
  obtain ⟨i, hia, hib⟩ := get_relation_eq_iff.mp heq.1
  obtain ⟨j, hja, hjb⟩ := get_relation_eq_iff.mp heq.2
  exact ⟨heq, mem_flatten_iff_cluster_map.mpr ⟨i, hia⟩,
    mem_flatten_iff_cluster_map.mpr ⟨j, hja⟩,
    mem_flatten_iff_cluster_map.mpr ⟨i, hib⟩,
    mem_flatten_iff_cluster_map.mpr ⟨j, hjb⟩⟩

/-- Witness for C10: the joint cluster of a self-merge, evaluated. -/
theorem output_clusters_same_in_both_witness :
    (get_relation [["a", "b"]] "a" "b" = Rel.eq ∧
      get_relation [["a", "b"]] "a" "b" = Rel.eq) ∧
    ("a" ∈ List.flatten [["a", "b"]] ∧ "a" ∈ List.flatten [["a", "b"]] ∧
      "b" ∈ List.flatten [["a", "b"]] ∧ "b" ∈ List.flatten [["a", "b"]]) :=
  output_clusters_same_in_both [["a", "b"]] [["a", "b"]] ["a", "b"] (by decide)
    "a" (by decide) "b" (by decide) (by decide)

end Task3
